import Mathlib

/-!
Verification development for the `deduplicateMusic` audio-deduplication tool.

The Go sources are shallowly embedded:
* `internal/fingerprint/fingerprint.go` — perceptual fingerprint of PCM samples
  (block rectified means, median threshold, bit mask) and Hamming distance.
  IEEE float64 block arithmetic is idealised as exact rational arithmetic.
* `internal/dedup/dedup.go` — union-find clustering by Hamming distance and
  representative selection (`SelectKeep`). The concurrent all-pairs loop is
  sequentialised; the path-compressing `find` is embedded with explicit fuel.
* `cmd/audio-dedup/main.go` — the result-collection policy of the batch
  fingerprinting pipeline, sequentialised over the delivered per-file results.

Go `string` ordering on paths is modelled by lexicographic order on the
underlying character lists, `uint64` bit masks by `ℕ` with explicit `% 2 ^ 64`.
-/

/-- Metadata of a fingerprinted audio file, from `FileMeta` in dedup.go. -/
structure FileMeta where
  Path : String
  Size : ℤ
  FP : ℕ
deriving DecidableEq, Inhabited

/-- Bit-counting loop with explicit fuel: `onesCountFuel fuel n` adds up the binary
digits of `n`, consuming one unit of fuel per digit. -/
def onesCountFuel : ℕ → ℕ → ℕ
  | 0, _ => 0
  | fuel + 1, n => if n = 0 then 0 else n % 2 + onesCountFuel fuel (n / 2)

/-- Population count; fuel `n` always suffices for the digits of `n`. -/
def onesCount (n : ℕ) : ℕ := onesCountFuel n n

/-- Embedding of `HammingDistance` (fingerprint.go lines 249-251):
`bits.OnesCount64(a ^ b)`. -/
def HammingDistance (a b : ℕ) : ℕ := onesCount (a ^^^ b)

/-- Absolute sample value as a rational, from the rectification branch
`if v < 0 { sum -= float64(v) } else { sum += float64(v) }` in fingerprint.go. -/
def sampleAbs (v : ℤ) : ℚ := if v < 0 then -(v : ℚ) else (v : ℚ)

/-- Mean absolute amplitude of block `i`, from the per-block worker body of
`FingerprintFromSamples` (fingerprint.go lines 196-222). -/
def blockAverage (samples : List ℤ) (blockSize i : ℕ) : ℚ :=
  let start := i * blockSize
  if samples.length ≤ start then 0
  else
    let stop := min (start + blockSize) samples.length
    let block := (samples.drop start).take (stop - start)
    if stop - start = 0 then 0
    else (block.map sampleAbs).sum / ((stop - start : ℕ) : ℚ)

/-- Median threshold of the sorted block averages (fingerprint.go lines 230-236). -/
def medianOfSorted (tmp : List ℚ) : ℚ :=
  let n := tmp.length
  if n % 2 = 0 then (tmp.getD (n / 2 - 1) 0 + tmp.getD (n / 2) 0) / 2
  else tmp.getD (n / 2) 0

/-- Shallow embedding of `FingerprintFromSamples` (fingerprint.go lines 179-246).
A nonpositive `bitsLen` is coerced to 64 as in the source; the `uint64` shift-or
accumulation is modelled on `ℕ` with an explicit `% 2 ^ 64`. -/
def FingerprintFromSamples (samples : List ℤ) (bitsLen : ℤ) : ℕ :=
  let bl := if bitsLen ≤ 0 then (64 : ℤ) else bitsLen
  if samples.length = 0 then 0
  else
    let blockCount := bl.toNat
    let blockSize := (samples.length + blockCount - 1) / blockCount
    let averages := (List.range blockCount).map (blockAverage samples blockSize)
    let median := medianOfSorted (List.insertionSort (· ≤ ·) averages)
    (List.range blockCount).foldl
      (fun mask i =>
        if median < averages.getD i 0 then mask ||| 2 ^ (blockCount - 1 - i) % 2 ^ 64 else mask)
      0

/-- Validation layer of `FingerprintFromFile` (fingerprint.go lines 35-38 and 78): the
external ffmpeg decode step is abstracted by passing the decoded samples directly;
the `bitsLen` contract check precedes everything else. -/
def FingerprintFromFileChecked (samples : List ℤ) (bitsLen : ℤ) : Except String ℕ :=
  if bitsLen ≤ 0 ∨ 64 < bitsLen then Except.error "bitsLen must be 1..64"
  else Except.ok (FingerprintFromSamples samples bitsLen)

/-- Union-find state, from `unionFind` in dedup.go. -/
structure UnionFind where
  parent : List ℕ
  rank : List ℕ

/-- Embedding of `newUnionFind` (dedup.go lines 81-89). -/
def newUnionFind (n : ℕ) : UnionFind := ⟨List.range n, List.replicate n 0⟩

/-- Parent lookup; an out-of-range index is its own parent. -/
def pm (u : UnionFind) (x : ℕ) : ℕ := u.parent.getD x x

/-- Fuel-indexed embedding of the path-compressing recursive `find`
(dedup.go lines 91-96). -/
def ufFind : ℕ → UnionFind → ℕ → UnionFind × ℕ
  | 0, u, x => (u, x)
  | fuel + 1, u, x =>
    if pm u x = x then (u, x)
    else
      let res := ufFind fuel u (pm u x)
      ({ res.1 with parent := res.1.parent.set x res.2 }, res.2)

/-- Embedding of `union` by rank (dedup.go lines 98-112); `n` is the find fuel. -/
def ufUnion (n : ℕ) (u : UnionFind) (a b : ℕ) : UnionFind :=
  let fa := ufFind n u a
  let fb := ufFind n fa.1 b
  let u2 := fb.1
  let ar := fa.2
  let br := fb.2
  if ar = br then u2
  else if u2.rank.getD ar 0 < u2.rank.getD br 0 then { u2 with parent := u2.parent.set ar br }
  else if u2.rank.getD br 0 < u2.rank.getD ar 0 then { u2 with parent := u2.parent.set br ar }
  else { u2 with parent := u2.parent.set br ar, rank := u2.rank.set ar (u2.rank.getD ar 0 + 1) }

/-- All-pairs union pass of `SelectKeep` (dedup.go lines 33-47), sequentialised: for
each `i < n` and each `j` in `i+1 .. n-1`, union `i` and `j` when the Hamming distance
of their fingerprints is within the threshold. -/
def pairsFold (files : List FileMeta) (threshold : ℤ) : UnionFind :=
  (List.range files.length).foldl
    (fun u i =>
      (List.range' (i + 1) (files.length - (i + 1))).foldl
        (fun u j =>
          if (HammingDistance (files.getD i default).FP (files.getD j default).FP : ℤ) ≤ threshold
          then ufUnion files.length u i j
          else u)
        u)
    (newUnionFind files.length)

/-- Root-collection pass of `SelectKeep` (dedup.go lines 50-54): `find(i)` for each
`i = 0..n-1`, threading the mutated union-find state. -/
def rootsPass (n : ℕ) (u : UnionFind) : UnionFind × List ℕ :=
  (List.range n).foldl
    (fun acc i =>
      let fr := ufFind n acc.1 i
      (fr.1, acc.2 ++ [fr.2]))
    (u, [])

/-- Root labels assigned to the record indices by the grouping phase of `SelectKeep`. -/
def groupRoots (files : List FileMeta) (threshold : ℤ) : List ℕ :=
  (rootsPass files.length (pairsFold files threshold)).2

/-- Two record indices are clustered together iff the grouping phase of `SelectKeep`
assigned them the same union-find root. -/
def sameGroup (files : List FileMeta) (threshold : ℤ) (i j : ℕ) : Prop :=
  (groupRoots files threshold).getD i files.length
    = (groupRoots files threshold).getD j files.length

instance (files : List FileMeta) (threshold : ℤ) (i j : ℕ) :
    Decidable (sameGroup files threshold i j) :=
  inferInstanceAs (Decidable (_ = _))

/-- Key accumulation modelling the first-appearance enumeration order of the
`groups` map of dedup.go. -/
def insertKey (ks : List ℕ) (r : ℕ) : List ℕ := if r ∈ ks then ks else ks ++ [r]

/-- Cluster roots in order of first appearance. -/
def groupKeys (roots : List ℕ) : List ℕ := roots.foldl insertKey []

/-- Go string comparison `a < b` on paths, modelled on the character lists. -/
def pathLt (a b : FileMeta) : Prop := a.Path.data < b.Path.data

/-- Nonstrict path comparison, the sortedness relation of the final keep list. -/
def pathLe (a b : FileMeta) : Prop := a.Path.data ≤ b.Path.data

instance (a b : FileMeta) : Decidable (pathLt a b) :=
  inferInstanceAs (Decidable (_ < _))

instance (a b : FileMeta) : Decidable (pathLe a b) :=
  inferInstanceAs (Decidable (_ ≤ _))

/-- Nonstrict version of the in-group comparator of dedup.go lines 60-66: strictly
larger size first, ties broken by lexicographically smaller path. Sorting ascending
by `keepLe` realises the Go `sort.Slice` with that strict less function. -/
def keepLe (a b : FileMeta) : Prop :=
  b.Size < a.Size ∨ (a.Size = b.Size ∧ a.Path.data ≤ b.Path.data)

instance (a b : FileMeta) : Decidable (keepLe a b) :=
  inferInstanceAs (Decidable (_ ∨ _))

/-- In-group comparator lifted to record indices, as dedup.go sorts index slices. -/
def idxLe (files : List FileMeta) (i j : ℕ) : Prop :=
  keepLe (files.getD i default) (files.getD j default)

instance (files : List FileMeta) (i j : ℕ) : Decidable (idxLe files i j) :=
  inferInstanceAs (Decidable (keepLe _ _))

/-- Shallow embedding of `SelectKeep` (dedup.go lines 25-73): union-find clustering by
Hamming distance, then per cluster the first index after sorting by the
size-then-path comparator, and finally the keep list sorted by path. The unspecified
Go map iteration order is fixed to first-appearance order of the roots, which the
final path sort makes immaterial. -/
def SelectKeep (files : List FileMeta) (threshold : ℤ) : List FileMeta :=
  if files.length = 0 then []
  else
    let roots := groupRoots files threshold
    let keeps := (groupKeys roots).map (fun r =>
      let idxs := (List.range files.length).filter (fun i => roots.getD i files.length = r)
      files.getD ((List.insertionSort (idxLe files) idxs).headD 0) default)
    List.insertionSort pathLe keeps

/-- Per-file outcome delivered on the results channel of main.go (lines 75-84): the
worker always builds a `FileMeta` and attaches the decode error, if any. -/
structure WorkResult where
  meta : FileMeta
  err : Option String

/-- Successful records collected by the result loop of main.go (lines 98-113):
a result carrying an error is skipped. -/
def collectMetas (results : List WorkResult) : List FileMeta :=
  results.foldl
    (fun metas r => match r.err with | some _ => metas | none => metas ++ [r.meta]) []

/-- Per-file failures recorded (logged) by the result loop of main.go (lines 100-107). -/
def collectFailures (results : List WorkResult) : List (String × String) :=
  results.foldl
    (fun fs r => match r.err with | some e => fs ++ [(r.meta.Path, e)] | none => fs) []

/-- Batch-level outcome (main.go lines 123-125): fatal exactly when not a single
fingerprint was computed successfully. -/
def batchOutcome (results : List WorkResult) : Except String (List FileMeta) :=
  if (collectMetas results).length = 0 then Except.error "没有成功计算任何文件的指纹"
  else Except.ok (collectMetas results)

/-- Block `i` of the spec's reference fingerprint definition (§4.1 steps 2-3):
`bits` contiguous blocks of `ceil (length / bits)` samples each; a block lying past
the end of the input is empty. -/
def specBlock (s : List ℤ) (b i : ℕ) : List ℤ :=
  (s.drop (i * ((s.length + b - 1) / b))).take ((s.length + b - 1) / b)

/-- Rectified mean of a spec block (§4.1 step 3); an empty block contributes 0. -/
def specBlockMean (s : List ℤ) (b i : ℕ) : ℚ :=
  if (specBlock s b i).isEmpty then 0
  else (((specBlock s b i).map (fun v => ((v.natAbs : ℕ) : ℚ))).sum) / ((specBlock s b i).length : ℚ)

/-- Median of the block means per the spec (§4.1 step 4): arithmetic mean of the two
central sorted values for an even count, the single central value for an odd count. -/
def specMedian (ms : List ℚ) : ℚ :=
  if ms.length % 2 = 0 then
    ((List.insertionSort (· ≤ ·) ms).getD (ms.length / 2 - 1) 0
      + (List.insertionSort (· ≤ ·) ms).getD (ms.length / 2) 0) / 2
  else (List.insertionSort (· ≤ ·) ms).getD (ms.length / 2) 0

/-- Reference fingerprint of the spec (§4.1): the zero fingerprint on empty input,
otherwise bit `b - 1 - i` (block 0 highest) is set iff block `i`'s rectified mean
strictly exceeds the median; a mean equal to the median yields a 0 bit. -/
def specFingerprint (s : List ℤ) (b : ℕ) : ℕ :=
  if s.isEmpty then 0
  else
    ((List.range b).map (fun i =>
      if specMedian ((List.range b).map (specBlockMean s b)) < specBlockMean s b i
      then 2 ^ (b - 1 - i) else 0)).sum

/-- Chains of edges: reflexive-symmetric-transitive closure of a pairwise relation,
i.e. joint membership in a connected component of the undirected graph. -/
inductive ConnGen {α : Type} (r : α → α → Prop) : α → α → Prop
  | rel {a b : α} : r a b → ConnGen r a b
  | refl (a : α) : ConnGen r a a
  | symm {a b : α} : ConnGen r a b → ConnGen r b a
  | trans {a b c : α} : ConnGen r a b → ConnGen r b c → ConnGen r a c

/-- Threshold graph on the records themselves: two records of the batch are adjacent
iff the Hamming distance of their fingerprints is at most the threshold. Unlike the
index-level graph, this relation only depends on which records are in the batch. -/
def recEdge (files : List FileMeta) (threshold : ℤ) (a b : FileMeta) : Prop :=
  a ∈ files ∧ b ∈ files ∧ (HammingDistance a.FP b.FP : ℤ) ≤ threshold

/-- Threshold graph on record indices: `i` and `j` are adjacent iff both are in range
and the Hamming distance of their fingerprints is at most the threshold. -/
def hamEdge (files : List FileMeta) (threshold : ℤ) (i j : ℕ) : Prop :=
  i < files.length ∧ j < files.length ∧
    (HammingDistance (files.getD i default).FP (files.getD j default).FP : ℤ) ≤ threshold

/-! ### Result collection (main.go): basic characterisations -/

theorem collectMetas_go (rs : List WorkResult) (acc : List FileMeta) :
    rs.foldl (fun metas r => match r.err with | some _ => metas | none => metas ++ [r.meta]) acc
      = acc ++ (rs.filter (fun r => r.err.isNone)).map (fun r => r.meta) := by
  induction rs generalizing acc with
  | nil => simp
  | cons r rs ih =>
    cases h : r.err <;>
      simp [List.filter_cons, h, ih, List.append_assoc]

theorem collectMetas_eq (rs : List WorkResult) :
    collectMetas rs = (rs.filter (fun r => r.err.isNone)).map (fun r => r.meta) := by
  simpa using collectMetas_go rs []

theorem collectFailures_go (rs : List WorkResult) (acc : List (String × String)) :
    rs.foldl (fun fs r => match r.err with | some e => fs ++ [(r.meta.Path, e)] | none => fs) acc
      = acc ++ (rs.filter (fun r => r.err.isSome)).map (fun r => (r.meta.Path, r.err.getD "")) := by
  induction rs generalizing acc with
  | nil => simp
  | cons r rs ih =>
    cases h : r.err <;>
      simp [List.filter_cons, h, ih, List.append_assoc]

theorem collectFailures_eq (rs : List WorkResult) :
    collectFailures rs
      = (rs.filter (fun r => r.err.isSome)).map (fun r => (r.meta.Path, r.err.getD "")) := by
  simpa using collectFailures_go rs []

theorem batchOutcome_isOk_iff (rs : List WorkResult) :
    (batchOutcome rs).isOk ↔ collectMetas rs ≠ [] := by
  unfold batchOutcome
  rcases h : collectMetas rs with _ | ⟨m, ms⟩ <;> simp [h, Except.isOk, Except.toBool]

/-! ### Population count -/

theorem onesCountFuel_zero (f : ℕ) : onesCountFuel f 0 = 0 := by
  cases f <;> simp [onesCountFuel]

theorem onesCountFuel_succ (f n : ℕ) :
    onesCountFuel (f + 1) n = n % 2 + onesCountFuel f (n / 2) := by
  rcases eq_or_ne n 0 with rfl | h
  · simp [onesCountFuel, onesCountFuel_zero]
  · simp [onesCountFuel, h]

theorem onesCountFuel_congr : ∀ f1 : ℕ, ∀ f2 n : ℕ, n < 2 ^ f1 → n < 2 ^ f2 →
    onesCountFuel f1 n = onesCountFuel f2 n := by
  intro f1
  induction f1 with
  | zero =>
    intro f2 n h1 _
    interval_cases n
    simp [onesCountFuel_zero]
  | succ f1 ih =>
    intro f2 n h1 h2
    rcases eq_or_ne n 0 with rfl | hn
    · simp [onesCountFuel_zero]
    · rcases f2 with _ | f2
      · simp only [pow_zero, Nat.lt_one_iff] at h2
        exact absurd h2 hn
      · rw [onesCountFuel_succ, onesCountFuel_succ]
        have hd1 : n / 2 < 2 ^ f1 := by
          rw [Nat.div_lt_iff_lt_mul (by norm_num)]
          calc n < 2 ^ (f1 + 1) := h1
          _ = 2 ^ f1 * 2 := by ring
        have hd2 : n / 2 < 2 ^ f2 := by
          rw [Nat.div_lt_iff_lt_mul (by norm_num)]
          calc n < 2 ^ (f2 + 1) := h2
          _ = 2 ^ f2 * 2 := by ring
        rw [ih f2 (n / 2) hd1 hd2]

theorem onesCount_eq_fuel {f n : ℕ} (h : n < 2 ^ f) : onesCount n = onesCountFuel f n :=
  onesCountFuel_congr n f n (Nat.lt_two_pow n) h

theorem onesCountFuel_two_pow_add : ∀ e : ℕ, ∀ m : ℕ, m < 2 ^ e →
    onesCountFuel (e + 1) (2 ^ e + m) = 1 + onesCountFuel e m := by
  intro e
  induction e with
  | zero =>
    intro m hm
    interval_cases m
    simp [onesCountFuel]
  | succ e ih =>
    intro m hm
    have h2 : 2 ^ (e + 1) + m = 2 * 2 ^ e + m := by ring
    have hmod : (2 ^ (e + 1) + m) % 2 = m % 2 := by
      rw [h2, Nat.mul_add_mod]
    have hdiv : (2 ^ (e + 1) + m) / 2 = 2 ^ e + m / 2 := by
      rw [h2, Nat.mul_add_div (by norm_num)]
    have hm2 : m / 2 < 2 ^ e := by
      rw [Nat.div_lt_iff_lt_mul (by norm_num)]
      calc m < 2 ^ (e + 1) := hm
      _ = 2 ^ e * 2 := by ring
    rw [onesCountFuel_succ, hmod, hdiv, ih (m / 2) hm2, onesCountFuel_succ]
    omega

theorem onesCount_two_pow_add {e m : ℕ} (hm : m < 2 ^ e) :
    onesCount (2 ^ e + m) = 1 + onesCount m := by
  have h1 : 2 ^ e + m < 2 ^ (e + 1) := by
    have : (2 : ℕ) ^ (e + 1) = 2 ^ e + 2 ^ e := by ring
    omega
  rw [onesCount_eq_fuel h1, onesCountFuel_two_pow_add e m hm, ← onesCount_eq_fuel hm]

theorem onesCount_zero : onesCount 0 = 0 := rfl

/-! ### Mask accumulation: the shift-or fold as a sum of distinct powers -/

theorem maskTerms_sum_lt (bc : ℕ) (term : ℕ → ℕ)
    (hterm : ∀ i, term i = 0 ∨ term i = 2 ^ (bc - 1 - i)) :
    ∀ cnt s : ℕ, s + cnt = bc → ((List.range' s cnt).map term).sum < 2 ^ (bc - s) := by
  intro cnt
  induction cnt with
  | zero => intro s _; simpa using Nat.pos_pow_of_pos (bc - s) (by norm_num)
  | succ cnt ih =>
    intro s hs
    have hterm_s : term s ≤ 2 ^ (bc - 1 - s) := by
      rcases hterm s with h | h <;> simp [h]
    have hrest : ((List.range' (s + 1) cnt).map term).sum < 2 ^ (bc - (s + 1)) :=
      ih (s + 1) (by omega)
    have hse : bc - 1 - s = bc - (s + 1) := by omega
    rw [hse] at hterm_s
    have hpow : 2 ^ (bc - (s + 1)) + 2 ^ (bc - (s + 1)) = 2 ^ (bc - s) := by
      have h1 : bc - s = (bc - (s + 1)) + 1 := by omega
      rw [h1]; ring
    have : ((List.range' s (cnt + 1)).map term).sum = term s + ((List.range' (s + 1) cnt).map term).sum := by
      simp [List.range'_succ]
    rw [this]
    omega

theorem maskFold_eq_sum (bc : ℕ) (term : ℕ → ℕ)
    (hterm : ∀ i, term i = 0 ∨ term i = 2 ^ (bc - 1 - i)) :
    ∀ cnt s : ℕ, ∀ acc : ℕ, s + cnt = bc → 2 ^ (bc - s) ∣ acc →
      (List.range' s cnt).foldl (fun mask i => mask ||| term i) acc
        = acc + ((List.range' s cnt).map term).sum := by
  intro cnt
  induction cnt with
  | zero => intro s acc _ _; simp
  | succ cnt ih =>
    intro s acc hs hdvd
    have hlt : s < bc := by omega
    have hstep : acc ||| term s = acc + term s := by
      rcases hterm s with h | h
      · simp [h]
      · obtain ⟨q, hq⟩ := hdvd
        have hts : term s < 2 ^ (bc - s) := by
          rw [h]
          exact Nat.pow_lt_pow_right (by norm_num) (by omega)
        calc acc ||| term s = 2 ^ (bc - s) * q ||| term s := by rw [hq]
        _ = 2 ^ (bc - s) * q + term s := (Nat.mul_add_lt_is_or hts q).symm
        _ = acc + term s := by rw [← hq]
    have hdvd' : 2 ^ (bc - (s + 1)) ∣ acc + term s := by
      have h1 : 2 ^ (bc - (s + 1)) ∣ acc :=
        dvd_trans (pow_dvd_pow 2 (by omega)) hdvd
      rcases hterm s with h | h
      · simpa [h] using h1
      · have h2 : 2 ^ (bc - (s + 1)) ∣ term s := by
          rw [h]
          exact pow_dvd_pow 2 (by omega)
        exact Nat.dvd_add h1 h2
    have hfold : (List.range' s (cnt + 1)).foldl (fun mask i => mask ||| term i) acc
        = (List.range' (s + 1) cnt).foldl (fun mask i => mask ||| term i) (acc ||| term s) := by
      simp [List.range'_succ]
    rw [hfold, hstep, ih (s + 1) (acc + term s) (by omega) hdvd']
    simp [List.range'_succ]
    omega

theorem maskSum_onesCount (bc : ℕ) (term : ℕ → ℕ)
    (hterm : ∀ i, term i = 0 ∨ term i = 2 ^ (bc - 1 - i)) :
    ∀ cnt s : ℕ, s + cnt = bc →
      onesCount ((List.range' s cnt).map term).sum
        = (List.range' s cnt).countP (fun i => term i ≠ 0) := by
  intro cnt
  induction cnt with
  | zero => intro s _; simp [onesCount_zero]
  | succ cnt ih =>
    intro s hs
    have hrest : ((List.range' (s + 1) cnt).map term).sum < 2 ^ (bc - (s + 1)) :=
      maskTerms_sum_lt bc term hterm cnt (s + 1) (by omega)
    rw [List.range'_succ, List.map_cons, List.sum_cons, List.countP_cons]
    rcases hterm s with h | h
    · rw [h, Nat.zero_add, ih (s + 1) (by omega)]
      simp
    · have hse : bc - 1 - s = bc - (s + 1) := by omega
      rw [h, hse, onesCount_two_pow_add hrest, ih (s + 1) (by omega)]
      have hne : (2 : ℕ) ^ (bc - (s + 1)) ≠ 0 := pow_ne_zero _ (by norm_num)
      simp [hne]
      omega

/-! ### Fingerprint: relating the code embedding to the spec reference definition -/

theorem getD_of_lt {α : Type} (l : List α) (d : α) {i : ℕ} (h : i < l.length) :
    l.getD i d = l[i] := by
  rw [List.getD_eq_getElem?_getD, List.getElem?_eq_getElem h]
  rfl

theorem sampleAbs_natAbs (v : ℤ) : sampleAbs v = ((v.natAbs : ℕ) : ℚ) := by
  unfold sampleAbs
  have habs : ((v.natAbs : ℕ) : ℚ) = ((|v| : ℤ) : ℚ) := Int.cast_natAbs
  rw [habs]
  rcases lt_or_le v 0 with h | h
  · rw [if_pos h, abs_of_neg h]
    push_cast
    ring
  · rw [if_neg (not_lt.mpr h), abs_of_nonneg h]

/-- Averages of all blocks, the `averages` array of fingerprint.go. -/
def codeAverages (s : List ℤ) (b : ℕ) : List ℚ :=
  (List.range b).map (blockAverage s ((s.length + b - 1) / b))

/-- Median threshold computed by fingerprint.go from the sorted copy of `averages`. -/
def codeMedian (s : List ℤ) (b : ℕ) : ℚ :=
  medianOfSorted (List.insertionSort (· ≤ ·) (codeAverages s b))

theorem FingerprintFromSamples_nil (s : List ℤ) (bitsLen : ℤ) (hs : s.length = 0) :
    FingerprintFromSamples s bitsLen = 0 := by
  unfold FingerprintFromSamples
  simp [hs]

theorem FingerprintFromSamples_pos (s : List ℤ) (b : ℕ) (hb : 1 ≤ b) (hs : s.length ≠ 0) :
    FingerprintFromSamples s (b : ℤ)
      = (List.range b).foldl
          (fun mask i =>
            if codeMedian s b < (codeAverages s b).getD i 0
            then mask ||| 2 ^ (b - 1 - i) % 2 ^ 64 else mask)
          0 := by
  unfold FingerprintFromSamples codeMedian codeAverages
  have h1 : ¬ ((b : ℤ) ≤ 0) := by omega
  simp only [h1, if_false, hs, if_neg, Int.toNat_natCast]

theorem blockAverage_block (s : List ℤ) (sz i : ℕ) (hsz : 1 ≤ sz) :
    blockAverage s sz i
      = (if ((s.drop (i * sz)).take sz).isEmpty then 0
         else ((((s.drop (i * sz)).take sz).map sampleAbs).sum)
              / (((s.drop (i * sz)).take sz).length : ℚ)) := by
  unfold blockAverage
  by_cases hge : s.length ≤ i * sz
  · rw [if_pos hge]
    have hdrop : s.drop (i * sz) = [] := List.drop_eq_nil_of_le hge
    simp [hdrop]
  · rw [if_neg hge]
    push_neg at hge
    have hlendrop : (s.drop (i * sz)).length = s.length - i * sz := List.length_drop _ _
    have hcnt : min (i * sz + sz) s.length - i * sz = min sz (s.length - i * sz) := by omega
    have hcnt_pos : 0 < min sz (s.length - i * sz) := by omega
    have htake : (s.drop (i * sz)).take (min (i * sz + sz) s.length - i * sz)
        = (s.drop (i * sz)).take sz := by
      rw [hcnt]
      rcases le_or_lt sz (s.length - i * sz) with h | h
      · rw [min_eq_left h]
      · rw [min_eq_right (le_of_lt h)]
        rw [List.take_of_length_le (by omega), List.take_of_length_le (by omega)]
    show (if min (i * sz + sz) s.length - i * sz = 0 then (0 : ℚ)
        else (((s.drop (i * sz)).take (min (i * sz + sz) s.length - i * sz)).map sampleAbs).sum
          / ((min (i * sz + sz) s.length - i * sz : ℕ) : ℚ)) = _
    rw [hcnt] at htake
    rw [hcnt, htake]
    have hlen : ((s.drop (i * sz)).take sz).length = min sz (s.length - i * sz) := by
      rw [List.length_take, hlendrop]
    have hne : ¬ ((s.drop (i * sz)).take sz).isEmpty := by
      rw [List.isEmpty_iff_length_eq_zero, hlen]
      omega
    rw [if_neg (by omega), if_neg hne, hlen]

theorem blockAverage_eq_specBlockMean (s : List ℤ) (b : ℕ) (hs : s.length ≠ 0) (hb : 1 ≤ b)
    (i : ℕ) : blockAverage s ((s.length + b - 1) / b) i = specBlockMean s b i := by
  have hsz : 1 ≤ (s.length + b - 1) / b := by
    rw [Nat.le_div_iff_mul_le (by omega)]
    omega
  rw [blockAverage_block s _ i hsz]
  unfold specBlockMean specBlock
  by_cases he : ((s.drop (i * ((s.length + b - 1) / b))).take ((s.length + b - 1) / b)).isEmpty
  · rw [if_pos he, if_pos he]
  · rw [if_neg he, if_neg he]
    congr 1
    induction ((s.drop (i * ((s.length + b - 1) / b))).take ((s.length + b - 1) / b)) with
    | nil => simp
    | cons x xs ih => simp [sampleAbs_natAbs, ih]

theorem median_sort_eq_specMedian (ms : List ℚ) :
    medianOfSorted (List.insertionSort (· ≤ ·) ms) = specMedian ms := by
  unfold medianOfSorted specMedian
  have hlen : (List.insertionSort (· ≤ ·) ms).length = ms.length :=
    (List.perm_insertionSort _ ms).length_eq
  simp only [hlen]

theorem codeAverages_eq_specMeans (s : List ℤ) (b : ℕ) (hs : s.length ≠ 0) (hb : 1 ≤ b) :
    codeAverages s b = (List.range b).map (specBlockMean s b) := by
  unfold codeAverages
  congr 1
  funext i
  exact blockAverage_eq_specBlockMean s b hs hb i

theorem codeMedian_eq_specMedian (s : List ℤ) (b : ℕ) (hs : s.length ≠ 0) (hb : 1 ≤ b) :
    codeMedian s b = specMedian ((List.range b).map (specBlockMean s b)) := by
  unfold codeMedian
  rw [codeAverages_eq_specMeans s b hs hb, median_sort_eq_specMedian]

theorem getD_map_range {α : Type} [Inhabited α] (f : ℕ → α) (d : α) (b i : ℕ) (hi : i < b) :
    ((List.range b).map f).getD i d = f i := by
  have h : i < ((List.range b).map f).length := by simpa using hi
  rw [getD_of_lt _ _ h]
  simp

/-- The mask fold of `FingerprintFromSamples`, rewritten as a sum of distinct powers
of two (one per block whose mean strictly exceeds the median). -/
theorem FingerprintFromSamples_eq_sum (s : List ℤ) (b : ℕ)
    (hb : 1 ≤ b) (hb64 : b ≤ 64) (hs : s.length ≠ 0) :
    FingerprintFromSamples s (b : ℤ)
      = ((List.range b).map
          (fun i => if codeMedian s b < (codeAverages s b).getD i 0 then 2 ^ (b - 1 - i) else 0)).sum := by
  rw [FingerprintFromSamples_pos s b hb hs]
  have hmod : ∀ i : ℕ, (2 : ℕ) ^ (b - 1 - i) % 2 ^ 64 = 2 ^ (b - 1 - i) := by
    intro i
    apply Nat.mod_eq_of_lt
    exact Nat.pow_lt_pow_right (by norm_num) (by omega)
  have hfun : (fun (mask : ℕ) (i : ℕ) =>
        if codeMedian s b < (codeAverages s b).getD i 0
        then mask ||| 2 ^ (b - 1 - i) % 2 ^ 64 else mask)
      = (fun (mask : ℕ) (i : ℕ) =>
        mask ||| (if codeMedian s b < (codeAverages s b).getD i 0 then 2 ^ (b - 1 - i) else 0)) := by
    funext mask i
    by_cases h : codeMedian s b < (codeAverages s b).getD i 0
    · rw [if_pos h, if_pos h, hmod i]
    · rw [if_neg h, if_neg h]
      exact (Nat.or_zero _).symm
  rw [hfun, List.range_eq_range']
  have hmain := maskFold_eq_sum b
    (fun i => if codeMedian s b < (codeAverages s b).getD i 0 then 2 ^ (b - 1 - i) else 0)
    (fun i => by
      by_cases h : codeMedian s b < (codeAverages s b).getD i 0
      · exact Or.inr (if_pos h)
      · exact Or.inl (if_neg h))
    b 0 0 (by omega) (dvd_zero _)
  simpa using hmain

/-! ### Median counting bound -/

theorem countP_gt_median_le (l : List ℚ) (hl : l ≠ []) :
    l.countP (fun a => decide (medianOfSorted (List.insertionSort (· ≤ ·) l) < a))
      ≤ l.length / 2 := by
  set t := List.insertionSort (· ≤ ·) l with ht
  set med := medianOfSorted t with hmeddef
  have hsorted : List.Sorted (· ≤ ·) t := List.sorted_insertionSort _ l
  have hperm : List.Perm t l := List.perm_insertionSort _ l
  have hlen : t.length = l.length := hperm.length_eq
  have hn : t.length ≠ 0 := by
    rw [hlen]
    simpa using hl
  set n := t.length with hndef
  set h := n - n / 2 with hhdef
  have hpos : 1 ≤ h := by omega
  have hhn : h ≤ n := by omega
  have hmed : t.getD (h - 1) 0 ≤ med := by
    rw [hmeddef]
    unfold medianOfSorted
    rcases Nat.even_or_odd n with he | ho
    · have he2 : n % 2 = 0 := Nat.even_iff.mp he
      have hh : h - 1 = n / 2 - 1 := by omega
      rw [if_pos he2, hh]
      have hn2 : n / 2 < n := by omega
      have hn21 : n / 2 - 1 < n := by omega
      rw [getD_of_lt _ _ hn21, getD_of_lt _ _ hn2]
      have hle : t[n / 2 - 1] ≤ t[n / 2] := by
        have := hsorted.rel_get_of_le (a := ⟨n / 2 - 1, hn21⟩) (b := ⟨n / 2, hn2⟩)
          (Fin.mk_le_mk.mpr (by omega))
        simpa using this
      linarith
    · have ho2 : n % 2 = 1 := Nat.odd_iff.mp ho
      have hh : h - 1 = n / 2 := by omega
      rw [if_neg (by omega), hh]
  have hkey : ∀ a ∈ t.take h, ¬ (med < a) := by
    intro a ha
    rw [not_lt]
    obtain ⟨i, hi, rfl⟩ := List.getElem_of_mem ha
    have hil : i < h := by
      have := hi
      simp [List.length_take] at this
      omega
    have hin : i < n := by
      have := hi
      simp [List.length_take] at this
      omega
    have h1n : h - 1 < n := by omega
    rw [List.getElem_take]
    have hrel : t[i] ≤ t[h - 1] := by
      have := hsorted.rel_get_of_le (a := ⟨i, hin⟩) (b := ⟨h - 1, h1n⟩)
        (Fin.mk_le_mk.mpr (by omega))
      simpa using this
    calc t[i] ≤ t[h - 1] := hrel
    _ = t.getD (h - 1) 0 := (getD_of_lt _ _ h1n).symm
    _ ≤ med := hmed
  have hsplit : t.countP (fun a => decide (med < a)) ≤ n / 2 := by
    conv_lhs => rw [← List.take_append_drop h t]
    rw [List.countP_append]
    have hz : (t.take h).countP (fun a => decide (med < a)) = 0 := by
      rw [List.countP_eq_zero]
      intro a ha
      simpa using hkey a ha
    rw [hz, Nat.zero_add]
    calc (t.drop h).countP (fun a => decide (med < a))
        ≤ (t.drop h).length := List.countP_le_length _
    _ = n - h := by rw [List.length_drop]
    _ = n / 2 := by omega
  calc l.countP (fun a => decide (med < a))
      = t.countP (fun a => decide (med < a)) := (hperm.countP_eq _).symm
  _ ≤ n / 2 := hsplit
  _ = l.length / 2 := by rw [← hlen]

/-! ### Refinement: the code fingerprint equals the spec reference definition -/

theorem blockSize_pos (len b : ℕ) (hlen : len ≠ 0) (hb : 1 ≤ b) :
    1 ≤ (len + b - 1) / b := by
  rw [Nat.le_div_iff_mul_le (by omega)]
  omega

theorem FingerprintFromSamples_eq_specFingerprint (s : List ℤ) (b : ℕ)
    (hb : 1 ≤ b) (hb64 : b ≤ 64) :
    FingerprintFromSamples s (b : ℤ) = specFingerprint s b := by
  rcases eq_or_ne s.length 0 with hs | hs
  · rw [FingerprintFromSamples_nil s _ hs]
    unfold specFingerprint
    rw [if_pos (List.isEmpty_iff_length_eq_zero.mpr hs)]
  · rw [FingerprintFromSamples_eq_sum s b hb hb64 hs]
    unfold specFingerprint
    rw [if_neg (by
      rw [List.isEmpty_iff_length_eq_zero]
      exact hs)]
    congr 1
    apply List.map_congr_left
    intro i hi
    have hib : i < b := List.mem_range.mp hi
    rw [codeMedian_eq_specMedian s b hs hb, codeAverages_eq_specMeans s b hs hb,
      getD_map_range _ _ b i hib]

/-! ### Output range and Hamming-weight bound of the fingerprint -/

theorem FingerprintFromSamples_lt_two_pow (s : List ℤ) (b : ℕ)
    (hb : 1 ≤ b) (hb64 : b ≤ 64) (hs : s.length ≠ 0) :
    FingerprintFromSamples s (b : ℤ) < 2 ^ b := by
  rw [FingerprintFromSamples_eq_sum s b hb hb64 hs, List.range_eq_range']
  have := maskTerms_sum_lt b
    (fun i => if codeMedian s b < (codeAverages s b).getD i 0 then 2 ^ (b - 1 - i) else 0)
    (fun i => by
      by_cases h : codeMedian s b < (codeAverages s b).getD i 0
      · exact Or.inr (if_pos h)
      · exact Or.inl (if_neg h))
    b 0 (by omega)
  simpa using this

theorem codeAverages_length (s : List ℤ) (b : ℕ) : (codeAverages s b).length = b := by
  unfold codeAverages
  simp

theorem FingerprintFromSamples_onesCount_le (s : List ℤ) (b : ℕ)
    (hb : 1 ≤ b) (hb64 : b ≤ 64) (hs : s.length ≠ 0) :
    onesCount (FingerprintFromSamples s (b : ℤ)) ≤ b / 2 := by
  rw [FingerprintFromSamples_eq_sum s b hb hb64 hs, List.range_eq_range']
  rw [maskSum_onesCount b
    (fun i => if codeMedian s b < (codeAverages s b).getD i 0 then 2 ^ (b - 1 - i) else 0)
    (fun i => by
      by_cases h : codeMedian s b < (codeAverages s b).getD i 0
      · exact Or.inr (if_pos h)
      · exact Or.inl (if_neg h))
    b 0 (by omega)]
  have hstep1 : (List.range' 0 b).countP
        (fun i => decide ((if codeMedian s b < (codeAverages s b).getD i 0
          then 2 ^ (b - 1 - i) else 0) ≠ 0))
      = (List.range' 0 b).countP
        (fun i => decide (codeMedian s b < (codeAverages s b).getD i 0)) := by
    apply List.countP_congr
    intro i _
    by_cases h : codeMedian s b < (codeAverages s b).getD i 0
    · simp [h, pow_ne_zero]
    · simp [h]
  rw [hstep1, ← List.range_eq_range']
  have hstep2 : (List.range b).countP
        (fun i => decide (codeMedian s b < (codeAverages s b).getD i 0))
      = (codeAverages s b).countP (fun q => decide (codeMedian s b < q)) := by
    conv_rhs => rw [show codeAverages s b = (List.range b).map (blockAverage s ((s.length + b - 1) / b)) from rfl]
    rw [List.countP_map]
    apply List.countP_congr
    intro i hi
    have hib : i < b := List.mem_range.mp hi
    have : (codeAverages s b).getD i 0 = blockAverage s ((s.length + b - 1) / b) i := by
      unfold codeAverages
      exact getD_map_range _ _ b i hib
    simp only [Function.comp]
    rw [this]
  rw [hstep2]
  have hne : codeAverages s b ≠ [] := by
    intro hcon
    have := codeAverages_length s b
    rw [hcon] at this
    simp at this
    omega
  have := countP_gt_median_le (codeAverages s b) hne
  rw [codeAverages_length s b] at this
  exact this

/-! ### Volume invariance of the fingerprint -/

theorem sampleAbs_scale (c : ℤ) (hc : 0 < c) (v : ℤ) :
    sampleAbs (c * v) = (c : ℚ) * sampleAbs v := by
  unfold sampleAbs
  rcases lt_trichotomy v 0 with h | rfl | h
  · rw [if_pos h, if_pos (mul_neg_of_pos_of_neg hc h)]
    push_cast
    ring
  · simp
  · have hv : ¬ v < 0 := by omega
    have hcv : ¬ c * v < 0 := not_lt.mpr (mul_nonneg hc.le h.le)
    rw [if_neg hv, if_neg hcv]
    push_cast
    ring

theorem blockAverage_scale (c : ℤ) (hc : 0 < c) (s : List ℤ) (sz i : ℕ) (hsz : 1 ≤ sz) :
    blockAverage (s.map (fun x => c * x)) sz i = (c : ℚ) * blockAverage s sz i := by
  rw [blockAverage_block _ sz i hsz, blockAverage_block s sz i hsz]
  rw [← List.map_drop, ← List.map_take]
  by_cases he : ((s.drop (i * sz)).take sz).isEmpty
  · rw [if_pos (by simpa using he), if_pos he, mul_zero]
  · rw [if_neg (by simpa using he), if_neg he]
    rw [List.map_map, List.length_map]
    have hmap : ((s.drop (i * sz)).take sz).map (sampleAbs ∘ fun x => c * x)
        = ((s.drop (i * sz)).take sz).map (fun x => (c : ℚ) * sampleAbs x) :=
      List.map_congr_left (fun x _ => sampleAbs_scale c hc x)
    rw [hmap, List.sum_map_mul_left, mul_div_assoc]

theorem insertionSort_map_scale (c : ℚ) (hc : 0 < c) (l : List ℚ) :
    List.insertionSort (· ≤ ·) (l.map (fun q => c * q))
      = (List.insertionSort (· ≤ ·) l).map (fun q => c * q) := by
  have hp : List.Perm (List.insertionSort (· ≤ ·) (l.map (fun q => c * q)))
      ((List.insertionSort (· ≤ ·) l).map (fun q => c * q)) :=
    (List.perm_insertionSort _ _).trans ((List.perm_insertionSort _ l).map _).symm
  have hs1 : List.Sorted (· ≤ ·) (List.insertionSort (· ≤ ·) (l.map (fun q => c * q))) :=
    List.sorted_insertionSort _ _
  have hs2 : List.Sorted (· ≤ ·) ((List.insertionSort (· ≤ ·) l).map (fun q => c * q)) :=
    List.Pairwise.map _ (fun a b hab => mul_le_mul_of_nonneg_left hab hc.le)
      (List.sorted_insertionSort _ l)
  exact List.eq_of_perm_of_sorted hp hs1 hs2

theorem medianOfSorted_def (tmp : List ℚ) :
    medianOfSorted tmp
      = if tmp.length % 2 = 0
        then (tmp.getD (tmp.length / 2 - 1) 0 + tmp.getD (tmp.length / 2) 0) / 2
        else tmp.getD (tmp.length / 2) 0 := rfl

theorem medianOfSorted_scale (c : ℚ) (t : List ℚ) :
    medianOfSorted (t.map (fun q => c * q)) = c * medianOfSorted t := by
  rw [medianOfSorted_def, medianOfSorted_def, List.length_map]
  rcases eq_or_ne t.length 0 with hlen | hlen
  · rw [List.length_eq_zero.mp hlen]
    simp
  · by_cases hpar : t.length % 2 = 0
    · rw [if_pos hpar, if_pos hpar]
      have h1 : t.length / 2 < t.length := by omega
      have h2 : t.length / 2 - 1 < t.length := by omega
      have h1m : t.length / 2 < (t.map (fun q => c * q)).length := by
        rw [List.length_map]; exact h1
      have h2m : t.length / 2 - 1 < (t.map (fun q => c * q)).length := by
        rw [List.length_map]; exact h2
      rw [getD_of_lt _ _ h1m, getD_of_lt _ _ h2m, getD_of_lt _ _ h1, getD_of_lt _ _ h2]
      rw [List.getElem_map, List.getElem_map]
      ring
    · rw [if_neg hpar, if_neg hpar]
      have h1 : t.length / 2 < t.length := by omega
      have h1m : t.length / 2 < (t.map (fun q => c * q)).length := by
        rw [List.length_map]; exact h1
      rw [getD_of_lt _ _ h1m, getD_of_lt _ _ h1, List.getElem_map]

theorem codeAverages_scale (c : ℤ) (hc : 0 < c) (s : List ℤ) (b : ℕ)
    (hs : s.length ≠ 0) (hb : 1 ≤ b) :
    codeAverages (s.map (fun x => c * x)) b = (codeAverages s b).map (fun q => (c : ℚ) * q) := by
  unfold codeAverages
  rw [List.length_map, List.map_map]
  apply List.map_congr_left
  intro i _
  exact blockAverage_scale c hc s _ i (blockSize_pos s.length b hs hb)

theorem codeMedian_scale (c : ℤ) (hc : 0 < c) (s : List ℤ) (b : ℕ)
    (hs : s.length ≠ 0) (hb : 1 ≤ b) :
    codeMedian (s.map (fun x => c * x)) b = (c : ℚ) * codeMedian s b := by
  unfold codeMedian
  rw [codeAverages_scale c hc s b hs hb,
    insertionSort_map_scale (c : ℚ) (by exact_mod_cast hc) (codeAverages s b),
    medianOfSorted_scale]

theorem FingerprintFromSamples_scale (s : List ℤ) (b : ℕ) (c : ℤ)
    (hb : 1 ≤ b) (hc : 0 < c) :
    FingerprintFromSamples (s.map (fun x => c * x)) (b : ℤ)
      = FingerprintFromSamples s (b : ℤ) := by
  rcases eq_or_ne s.length 0 with hs | hs
  · rw [FingerprintFromSamples_nil _ _ (by simpa using hs), FingerprintFromSamples_nil s _ hs]
  · have hs' : (s.map (fun x => c * x)).length ≠ 0 := by simpa using hs
    rw [FingerprintFromSamples_pos _ b hb hs', FingerprintFromSamples_pos s b hb hs]
    apply List.foldl_ext
    intro mask i hi
    have hib : i < b := List.mem_range.mp hi
    have hcq : (0 : ℚ) < (c : ℚ) := by exact_mod_cast hc
    have hgd : (codeAverages (s.map (fun x => c * x)) b).getD i 0
        = (c : ℚ) * (codeAverages s b).getD i 0 := by
      rw [codeAverages_scale c hc s b hs hb]
      have hibm : i < (codeAverages s b).length := by rw [codeAverages_length]; exact hib
      have hibm2 : i < ((codeAverages s b).map (fun q => (c : ℚ) * q)).length := by
        rw [List.length_map]; exact hibm
      rw [getD_of_lt _ _ hibm2, getD_of_lt _ _ hibm, List.getElem_map]
    rw [hgd, codeMedian_scale c hc s b hs hb]
    by_cases h : codeMedian s b < (codeAverages s b).getD i 0
    · rw [if_pos h, if_pos ((mul_lt_mul_left hcq).mpr h)]
    · rw [if_neg h, if_neg (fun hcon => h ((mul_lt_mul_left hcq).mp hcon))]

/-! ### Union-find: roots, well-formedness, and the find and union operations -/

theorem pm_out (u : UnionFind) (x : ℕ) (h : u.parent.length ≤ x) : pm u x = x := by
  unfold pm
  rw [List.getD_eq_getElem?_getD, List.getElem?_eq_none h]
  rfl

/-- Index `r` is the root of `x`: some iterate of the parent map takes `x` to `r`,
and `r` is a fixpoint of the parent map. -/
def RootOf (u : UnionFind) (x r : ℕ) : Prop :=
  (∃ k : ℕ, (pm u)^[k] x = r) ∧ pm u r = r

/-- Well-formed union-find state over `n` elements: the parent array has length `n`,
parents of valid nodes are valid, and every node reaches a root. -/
def WFuf (n : ℕ) (u : UnionFind) : Prop :=
  u.parent.length = n ∧ (∀ x, x < n → pm u x < n) ∧ (∀ x, ∃ r, RootOf u x r)

theorem rootOf_fix (u : UnionFind) {r : ℕ} (h : pm u r = r) (k : ℕ) : (pm u)^[k] r = r :=
  Function.iterate_fixed h k

theorem rootOf_unique (u : UnionFind) {x r1 r2 : ℕ}
    (h1 : RootOf u x r1) (h2 : RootOf u x r2) : r1 = r2 := by
  obtain ⟨⟨k1, hk1⟩, hr1⟩ := h1
  obtain ⟨⟨k2, hk2⟩, hr2⟩ := h2
  rcases le_total k1 k2 with h | h
  · have hsplit : (pm u)^[k2] x = (pm u)^[k2 - k1] ((pm u)^[k1] x) := by
      rw [← Function.iterate_add_apply]
      congr 1
      omega
    rw [hsplit, hk1, rootOf_fix u hr1] at hk2
    exact hk2
  · have hsplit : (pm u)^[k1] x = (pm u)^[k1 - k2] ((pm u)^[k2] x) := by
      rw [← Function.iterate_add_apply]
      congr 1
      omega
    rw [hsplit, hk2, rootOf_fix u hr2] at hk1
    exact hk1.symm

theorem rootOf_step (u : UnionFind) {x r : ℕ} (h : RootOf u (pm u x) r) : RootOf u x r := by
  obtain ⟨⟨k, hk⟩, hr⟩ := h
  exact ⟨⟨k + 1, by rw [Function.iterate_succ_apply]; exact hk⟩, hr⟩

theorem rootOf_self (u : UnionFind) {x : ℕ} (h : pm u x = x) : RootOf u x x := ⟨⟨0, rfl⟩, h⟩

theorem pm_iterate_lt (n : ℕ) (u : UnionFind) (hrange : ∀ x, x < n → pm u x < n) :
    ∀ k x : ℕ, x < n → (pm u)^[k] x < n := by
  intro k
  induction k with
  | zero => intro x hx; simpa using hx
  | succ k ih =>
    intro x hx
    rw [Function.iterate_succ_apply]
    exact ih (pm u x) (hrange x hx)

theorem rootOf_lt (n : ℕ) (u : UnionFind)
    (hrange : ∀ x, x < n → pm u x < n) {x r : ℕ} (hx : x < n) (h : RootOf u x r) : r < n := by
  obtain ⟨⟨k, hk⟩, _⟩ := h
  rw [← hk]
  exact pm_iterate_lt n u hrange k x hx

theorem chain_bound (n : ℕ) (u : UnionFind)
    (hrange : ∀ x, x < n → pm u x < n) {x : ℕ} (hx : x < n)
    (hex : ∃ k, pm u ((pm u)^[k] x) = (pm u)^[k] x) :
    ∃ k, k < n ∧ pm u ((pm u)^[k] x) = (pm u)^[k] x := by
  classical
  have hiter : ∀ m : ℕ, (pm u)^[m] x < n := by
    intro m
    induction m with
    | zero => simpa using hx
    | succ m ih =>
      rw [Function.iterate_succ_apply']
      exact hrange _ ih
  have hP : pm u ((pm u)^[Nat.find hex] x) = (pm u)^[Nat.find hex] x := Nat.find_spec hex
  by_cases hlt : Nat.find hex < n
  · exact ⟨Nat.find hex, hlt, hP⟩
  · exfalso
    push_neg at hlt
    have key : ∀ i j : ℕ, i < j → j ≤ Nat.find hex → (pm u)^[i] x = (pm u)^[j] x → False := by
      intro i j hij hj heq
      have h1 : (pm u)^[Nat.find hex] x = (pm u)^[Nat.find hex - j] ((pm u)^[j] x) := by
        rw [← Function.iterate_add_apply]
        congr 1
        omega
      have hsplit : (pm u)^[Nat.find hex] x = (pm u)^[Nat.find hex - (j - i)] x := by
        rw [h1, ← heq, ← Function.iterate_add_apply]
        congr 1
        omega
      have hPsmall : pm u ((pm u)^[Nat.find hex - (j - i)] x) = (pm u)^[Nat.find hex - (j - i)] x := by
        rw [← hsplit]
        exact hP
      exact Nat.find_min hex (show Nat.find hex - (j - i) < Nat.find hex by omega) hPsmall
    have ginj : Function.Injective
        (fun i : Fin (Nat.find hex + 1) => (⟨(pm u)^[i.1] x, hiter i.1⟩ : Fin n)) := by
      intro i j hij
      have hval : (pm u)^[i.1] x = (pm u)^[j.1] x := by
        simpa using congrArg Fin.val hij
      rcases Nat.lt_trichotomy i.1 j.1 with h | h | h
      · exact (key i.1 j.1 h (Nat.lt_succ_iff.mp j.isLt) hval).elim
      · exact Fin.ext h
      · exact (key j.1 i.1 h (Nat.lt_succ_iff.mp i.isLt) hval.symm).elim
    have hcard := Fintype.card_le_of_injective _ ginj
    simp [Fintype.card_fin] at hcard
    omega

theorem pm_parent_eq (u1 u2 : UnionFind) (h : u1.parent = u2.parent) : pm u1 = pm u2 := by
  funext x
  unfold pm
  rw [h]

theorem rootOf_congr (u1 u2 : UnionFind) (h : u1.parent = u2.parent) (y s : ℕ) :
    RootOf u1 y s ↔ RootOf u2 y s := by
  unfold RootOf
  rw [pm_parent_eq u1 u2 h]

theorem WFuf_congr (n : ℕ) (u1 u2 : UnionFind) (h : u1.parent = u2.parent) :
    WFuf n u1 ↔ WFuf n u2 := by
  unfold WFuf
  rw [pm_parent_eq u1 u2 h, h]
  refine and_congr Iff.rfl (and_congr Iff.rfl ?_)
  exact forall_congr' fun x => exists_congr fun r => by
    unfold RootOf
    rw [pm_parent_eq u1 u2 h]

theorem pm_set (u : UnionFind) (v w y : ℕ) (hv : v < u.parent.length) :
    pm { u with parent := u.parent.set v w } y = if y = v then w else pm u y := by
  unfold pm
  by_cases h : y = v
  · subst h
    rw [if_pos rfl]
    simp [List.getElem?_set_self (by simpa using hv)]
  · rw [if_neg h]
    simp only [List.getD_eq_getElem?_getD]
    rw [List.getElem?_set_ne (fun hc => h hc.symm)]

theorem rootOf_setParent (u : UnionFind) (v w : ℕ)
    (hvlen : v < u.parent.length)
    (hw : pm u w = w) (hvw : v ≠ w)
    (hv : pm u v = v ∨ RootOf u v w) :
    ∀ k y s : ℕ, (pm u)^[k] y = s → pm u s = s →
      RootOf { u with parent := u.parent.set v w } y (if s = v then w else s) := by
  intro k
  induction k with
  | zero =>
    intro y s hys hs
    simp only [Function.iterate_zero, id] at hys
    by_cases hyv : y = v
    · have hsv : s = v := by rw [← hys]; exact hyv
      rw [if_pos hsv]
      refine ⟨⟨1, ?_⟩, ?_⟩
      · rw [Function.iterate_one, pm_set u v w y hvlen, if_pos hyv]
      · rw [pm_set u v w w hvlen, if_neg (Ne.symm hvw)]
        exact hw
    · have hsv : s ≠ v := fun hc => hyv (hys.trans hc)
      rw [if_neg hsv]
      refine ⟨⟨0, hys⟩, ?_⟩
      rw [pm_set u v w s hvlen, if_neg hsv]
      exact hs
  | succ k ih =>
    intro y s hys hs
    by_cases hyv : y = v
    · rcases hv with hroot | hrootof
      · have hyroot : pm u y = y := by rw [hyv]; exact hroot
        have hsv : s = v := by
          rw [← hys, rootOf_fix u hyroot (k + 1)]
          exact hyv
        rw [if_pos hsv]
        refine ⟨⟨1, ?_⟩, ?_⟩
        · rw [Function.iterate_one, pm_set u v w y hvlen, if_pos hyv]
        · rw [pm_set u v w w hvlen, if_neg (Ne.symm hvw)]
          exact hw
      · have hyw : RootOf u y w := by rw [hyv]; exact hrootof
        have hsw : s = w := rootOf_unique u ⟨⟨k + 1, hys⟩, hs⟩ hyw
        have hsv : s ≠ v := by rw [hsw]; exact Ne.symm hvw
        rw [if_neg hsv, hsw]
        refine ⟨⟨1, ?_⟩, ?_⟩
        · rw [Function.iterate_one, pm_set u v w y hvlen, if_pos hyv]
        · rw [pm_set u v w w hvlen, if_neg (Ne.symm hvw)]
          exact hw
    · have hstep : (pm u)^[k] (pm u y) = s := by
        rw [← Function.iterate_succ_apply]
        exact hys
      have hres := ih (pm u y) s hstep hs
      have hpm : pm { u with parent := u.parent.set v w } y = pm u y := by
        rw [pm_set u v w y hvlen, if_neg hyv]
      apply rootOf_step
      rw [hpm]
      exact hres

theorem WFuf_setParent (n : ℕ) (u : UnionFind) (v w : ℕ) (hwf : WFuf n u)
    (hvn : v < n) (hwn : w < n) (hw : pm u w = w) (hvw : v ≠ w)
    (hv : pm u v = v ∨ RootOf u v w) :
    WFuf n { u with parent := u.parent.set v w } := by
  obtain ⟨hlen, hrange, hex⟩ := hwf
  have hvlen : v < u.parent.length := by omega
  refine ⟨by simpa using hlen, ?_, ?_⟩
  · intro x hxn
    rw [pm_set u v w x hvlen]
    by_cases h : x = v
    · rw [if_pos h]
      exact hwn
    · rw [if_neg h]
      exact hrange x hxn
  · intro y
    obtain ⟨r, ⟨⟨k, hk⟩, hroot⟩⟩ := hex y
    exact ⟨_, rootOf_setParent u v w hvlen hw hvw hv k y r hk hroot⟩

theorem ufFind_succ (fuel : ℕ) (u : UnionFind) (x : ℕ) :
    ufFind (fuel + 1) u x
      = if pm u x = x then (u, x)
        else ({ (ufFind fuel u (pm u x)).1 with
                parent := (ufFind fuel u (pm u x)).1.parent.set x (ufFind fuel u (pm u x)).2 },
              (ufFind fuel u (pm u x)).2) := rfl

theorem ufFind_ok (n : ℕ) : ∀ fuel : ℕ, ∀ u : UnionFind, ∀ x : ℕ,
    WFuf n u → x < n →
    (∃ k, k < fuel ∧ pm u ((pm u)^[k] x) = (pm u)^[k] x) →
    RootOf u x (ufFind fuel u x).2 ∧ WFuf n (ufFind fuel u x).1 ∧
      (∀ y s, RootOf u y s ↔ RootOf (ufFind fuel u x).1 y s) ∧
      (ufFind fuel u x).1.rank = u.rank := by
  intro fuel
  induction fuel with
  | zero =>
    intro u x _ _ hex
    obtain ⟨k, hk, _⟩ := hex
    omega
  | succ fuel ih =>
    intro u x hwf hx hex
    by_cases hroot : pm u x = x
    · rw [ufFind_succ, if_pos hroot]
      exact ⟨rootOf_self u hroot, hwf, fun y s => Iff.rfl, rfl⟩
    · have hp : pm u x < n := hwf.2.1 x hx
      obtain ⟨k, hkf, hkP⟩ := hex
      have hk0 : k ≠ 0 := by
        intro h0
        subst h0
        simp at hkP
        exact hroot hkP
      have hexp : ∃ j, j < fuel ∧ pm u ((pm u)^[j] (pm u x)) = (pm u)^[j] (pm u x) := by
        refine ⟨k - 1, by omega, ?_⟩
        have hiter : (pm u)^[k] x = (pm u)^[k - 1] (pm u x) := by
          conv_lhs => rw [show k = (k - 1) + 1 by omega]
          rw [Function.iterate_succ_apply]
        rw [← hiter]
        exact hkP
      obtain ⟨hroot1, hwf1, hiff1, hrank1⟩ := ih u (pm u x) hwf hp hexp
      have hrx : RootOf u x (ufFind fuel u (pm u x)).2 := rootOf_step u hroot1
      have hxnotroot1 : ¬ RootOf (ufFind fuel u (pm u x)).1 x x := by
        intro hcon
        obtain ⟨_, hxx⟩ := (hiff1 x x).mpr hcon
        exact hroot hxx
      have hr1 : RootOf (ufFind fuel u (pm u x)).1 x (ufFind fuel u (pm u x)).2 :=
        (hiff1 x _).mp hrx
      have hrroot1 : pm (ufFind fuel u (pm u x)).1 (ufFind fuel u (pm u x)).2
          = (ufFind fuel u (pm u x)).2 := hr1.2
      have hxr : x ≠ (ufFind fuel u (pm u x)).2 := by
        intro h
        rw [← h] at hrroot1
        exact hxnotroot1 (rootOf_self _ hrroot1)
      have hlen1 : (ufFind fuel u (pm u x)).1.parent.length = n := hwf1.1
      have hxlen1 : x < (ufFind fuel u (pm u x)).1.parent.length := by omega
      have hrn : (ufFind fuel u (pm u x)).2 < n :=
        rootOf_lt n (ufFind fuel u (pm u x)).1 hwf1.2.1 hx hr1
      have hwfset := WFuf_setParent n (ufFind fuel u (pm u x)).1 x (ufFind fuel u (pm u x)).2
        hwf1 hx hrn hrroot1 hxr (Or.inr hr1)
      have hfwd : ∀ y s, RootOf (ufFind fuel u (pm u x)).1 y s →
          RootOf { (ufFind fuel u (pm u x)).1 with
              parent := (ufFind fuel u (pm u x)).1.parent.set x (ufFind fuel u (pm u x)).2 } y s := by
        intro y s hys
        obtain ⟨⟨j, hj⟩, hsr⟩ := hys
        have hsx : s ≠ x := by
          intro hcon
          rw [hcon] at hsr
          exact hxnotroot1 (rootOf_self _ hsr)
        have := rootOf_setParent (ufFind fuel u (pm u x)).1 x (ufFind fuel u (pm u x)).2
          hxlen1 hrroot1 hxr (Or.inr hr1) j y s hj hsr
        rw [if_neg hsx] at this
        exact this
      have hiff2 : ∀ y s, RootOf (ufFind fuel u (pm u x)).1 y s ↔
          RootOf { (ufFind fuel u (pm u x)).1 with
              parent := (ufFind fuel u (pm u x)).1.parent.set x (ufFind fuel u (pm u x)).2 } y s := by
        intro y s
        constructor
        · exact hfwd y s
        · intro h2
          obtain ⟨s1, hs1⟩ := hwf1.2.2 y
          have heq := rootOf_unique _ (hfwd y s1 hs1) h2
          rw [← heq]
          exact hs1
      rw [ufFind_succ, if_neg hroot]
      refine ⟨hrx, hwfset, ?_, ?_⟩
      · intro y s
        exact (hiff1 y s).trans (hiff2 y s)
      · show ({ (ufFind fuel u (pm u x)).1 with
            parent := (ufFind fuel u (pm u x)).1.parent.set x (ufFind fuel u (pm u x)).2 }).rank = u.rank
        rw [← hrank1]

theorem ufFind_spec (n : ℕ) (u : UnionFind) (x : ℕ) (hwf : WFuf n u) (hx : x < n) :
    RootOf u x (ufFind n u x).2 ∧ WFuf n (ufFind n u x).1 ∧
      (∀ y s, RootOf u y s ↔ RootOf (ufFind n u x).1 y s) ∧
      (ufFind n u x).1.rank = u.rank := by
  apply ufFind_ok n n u x hwf hx
  obtain ⟨r, ⟨⟨k, hk⟩, hroot⟩⟩ := hwf.2.2 x
  have hex : ∃ j, pm u ((pm u)^[j] x) = (pm u)^[j] x := ⟨k, by rw [hk]; exact hroot⟩
  exact chain_bound n u hwf.2.1 hx hex

/-- Two nodes lie in the same union-find class. -/
def SameSet (u : UnionFind) (x y : ℕ) : Prop := ∃ r, RootOf u x r ∧ RootOf u y r

theorem sameSet_refl (u : UnionFind) (hex : ∀ z, ∃ r, RootOf u z r) (x : ℕ) :
    SameSet u x x := by
  obtain ⟨r, hr⟩ := hex x
  exact ⟨r, hr, hr⟩

theorem sameSet_symm (u : UnionFind) {x y : ℕ} (h : SameSet u x y) : SameSet u y x := by
  obtain ⟨r, h1, h2⟩ := h
  exact ⟨r, h2, h1⟩

theorem sameSet_trans (u : UnionFind) {x y z : ℕ}
    (h1 : SameSet u x y) (h2 : SameSet u y z) : SameSet u x z := by
  obtain ⟨r1, hx, hy⟩ := h1
  obtain ⟨r2, hy2, hz⟩ := h2
  rw [rootOf_unique u hy hy2] at hx
  exact ⟨r2, hx, hz⟩

theorem sameSet_iff_of_rootIff (u1 u2 : UnionFind)
    (h : ∀ y s, RootOf u1 y s ↔ RootOf u2 y s) (y z : ℕ) :
    SameSet u1 y z ↔ SameSet u2 y z :=
  exists_congr fun r => and_congr (h y r) (h z r)

theorem setParent_link_spec (n : ℕ) (u : UnionFind) (ra rb : ℕ) (hwf : WFuf n u)
    (hra : pm u ra = ra) (hrb : pm u rb = rb) (hne : ra ≠ rb) (hran : ra < n) (hrbn : rb < n) :
    WFuf n { u with parent := u.parent.set ra rb } ∧
      ∀ y s, RootOf { u with parent := u.parent.set ra rb } y s ↔
        ((RootOf u y s ∧ s ≠ ra) ∨ (RootOf u y ra ∧ s = rb)) := by
  have hralen : ra < u.parent.length := by rw [hwf.1]; exact hran
  refine ⟨WFuf_setParent n u ra rb hwf hran hrbn hrb hne (Or.inl hra), ?_⟩
  have hfwd : ∀ y s', RootOf u y s' →
      RootOf { u with parent := u.parent.set ra rb } y (if s' = ra then rb else s') := by
    intro y s' hys
    obtain ⟨⟨k, hk⟩, hsr⟩ := hys
    exact rootOf_setParent u ra rb hralen hrb hne (Or.inl hra) k y s' hk hsr
  intro y s
  constructor
  · intro h2
    obtain ⟨s1, hs1⟩ := hwf.2.2 y
    have heq := rootOf_unique _ (hfwd y s1 hs1) h2
    by_cases hs1ra : s1 = ra
    · right
      rw [if_pos hs1ra] at heq
      rw [hs1ra] at hs1
      exact ⟨hs1, heq.symm⟩
    · left
      rw [if_neg hs1ra] at heq
      rw [heq] at hs1 hs1ra
      exact ⟨hs1, hs1ra⟩
  · intro h
    rcases h with ⟨hys, hsra⟩ | ⟨hyra, hsrb⟩
    · have := hfwd y s hys
      rw [if_neg hsra] at this
      exact this
    · have := hfwd y ra hyra
      rw [if_pos rfl] at this
      rw [hsrb]
      exact this

theorem link_sameSet (n : ℕ) (u : UnionFind) (a b ra rb : ℕ) (hwf : WFuf n u)
    (hra : RootOf u a ra) (hrb : RootOf u b rb) (hne : ra ≠ rb)
    (hran : ra < n) (hrbn : rb < n)
    (uB : UnionFind) (hparent : uB.parent = ({ u with parent := u.parent.set ra rb }).parent) :
    WFuf n uB ∧ ∀ y z, SameSet uB y z ↔
      (SameSet u y z ∨ (SameSet u y a ∧ SameSet u b z) ∨ (SameSet u y b ∧ SameSet u a z)) := by
  obtain ⟨hwfC, hcharC⟩ := setParent_link_spec n u ra rb hwf hra.2 hrb.2 hne hran hrbn
  have hwfB : WFuf n uB := (WFuf_congr n uB _ hparent).mpr hwfC
  refine ⟨hwfB, ?_⟩
  intro y z
  have hchar : ∀ w s, RootOf uB w s ↔ ((RootOf u w s ∧ s ≠ ra) ∨ (RootOf u w ra ∧ s = rb)) := by
    intro w s
    rw [rootOf_congr uB _ hparent w s]
    exact hcharC w s
  constructor
  · rintro ⟨s, hy, hz⟩
    rw [hchar y s] at hy
    rw [hchar z s] at hz
    rcases hy with ⟨hy1, hy2⟩ | ⟨hy1, hy2⟩ <;> rcases hz with ⟨hz1, hz2⟩ | ⟨hz1, hz2⟩
    · exact Or.inl ⟨s, hy1, hz1⟩
    · -- y has root s = rb, z has root ra
      rw [hz2] at hy1
      exact Or.inr (Or.inr ⟨⟨rb, hy1, hrb⟩, ⟨ra, hra, hz1⟩⟩)
    · rw [hy2] at hz1
      exact Or.inr (Or.inl ⟨⟨ra, hy1, hra⟩, ⟨rb, hrb, hz1⟩⟩)
    · exact Or.inl ⟨ra, hy1, hz1⟩
  · intro h
    rcases h with ⟨r, hyr, hzr⟩ | ⟨⟨r1, hy1, ha1⟩, ⟨r2, hb2, hz2⟩⟩ | ⟨⟨r1, hy1, hb1⟩, ⟨r2, ha2, hz2⟩⟩
    · by_cases hrra : r = ra
      · refine ⟨rb, ?_, ?_⟩
        · rw [hchar y rb]
          right
          rw [hrra] at hyr
          exact ⟨hyr, rfl⟩
        · rw [hchar z rb]
          right
          rw [hrra] at hzr
          exact ⟨hzr, rfl⟩
      · refine ⟨r, ?_, ?_⟩
        · rw [hchar y r]
          exact Or.inl ⟨hyr, hrra⟩
        · rw [hchar z r]
          exact Or.inl ⟨hzr, hrra⟩
    · -- SameSet u y a and SameSet u b z : common root rb
      have hr1 : r1 = ra := rootOf_unique u ha1 hra
      have hr2 : r2 = rb := rootOf_unique u hb2 hrb
      refine ⟨rb, ?_, ?_⟩
      · rw [hchar y rb]
        right
        rw [hr1] at hy1
        exact ⟨hy1, rfl⟩
      · rw [hchar z rb]
        left
        rw [hr2] at hz2
        exact ⟨hz2, Ne.symm hne⟩
    · have hr1 : r1 = rb := rootOf_unique u hb1 hrb
      have hr2 : r2 = ra := rootOf_unique u ha2 hra
      refine ⟨rb, ?_, ?_⟩
      · rw [hchar y rb]
        left
        rw [hr1] at hy1
        exact ⟨hy1, Ne.symm hne⟩
      · rw [hchar z rb]
        right
        rw [hr2] at hz2
        exact ⟨hz2, rfl⟩

theorem ufUnion_eq (n : ℕ) (u : UnionFind) (a b : ℕ) :
    ufUnion n u a b
      = (if (ufFind n u a).2 = (ufFind n (ufFind n u a).1 b).2
         then (ufFind n (ufFind n u a).1 b).1
         else if (ufFind n (ufFind n u a).1 b).1.rank.getD ((ufFind n u a).2) 0
                < (ufFind n (ufFind n u a).1 b).1.rank.getD ((ufFind n (ufFind n u a).1 b).2) 0
           then { (ufFind n (ufFind n u a).1 b).1 with
                  parent := (ufFind n (ufFind n u a).1 b).1.parent.set
                    ((ufFind n u a).2) ((ufFind n (ufFind n u a).1 b).2) }
         else if (ufFind n (ufFind n u a).1 b).1.rank.getD ((ufFind n (ufFind n u a).1 b).2) 0
                < (ufFind n (ufFind n u a).1 b).1.rank.getD ((ufFind n u a).2) 0
           then { (ufFind n (ufFind n u a).1 b).1 with
                  parent := (ufFind n (ufFind n u a).1 b).1.parent.set
                    ((ufFind n (ufFind n u a).1 b).2) ((ufFind n u a).2) }
         else { (ufFind n (ufFind n u a).1 b).1 with
                parent := (ufFind n (ufFind n u a).1 b).1.parent.set
                  ((ufFind n (ufFind n u a).1 b).2) ((ufFind n u a).2),
                rank := (ufFind n (ufFind n u a).1 b).1.rank.set ((ufFind n u a).2)
                  ((ufFind n (ufFind n u a).1 b).1.rank.getD ((ufFind n u a).2) 0 + 1) }) := rfl

theorem ufUnion_spec (n : ℕ) (u : UnionFind) (a b : ℕ) (hwf : WFuf n u)
    (ha : a < n) (hb : b < n) :
    WFuf n (ufUnion n u a b) ∧
      ∀ y z, SameSet (ufUnion n u a b) y z ↔
        (SameSet u y z ∨ (SameSet u y a ∧ SameSet u b z) ∨ (SameSet u y b ∧ SameSet u a z)) := by
  obtain ⟨hra, hwf1, hiff1, _⟩ := ufFind_spec n u a hwf ha
  obtain ⟨hrb1, hwf2, hiff2, _⟩ := ufFind_spec n (ufFind n u a).1 b hwf1 hb
  have hrb : RootOf u b (ufFind n (ufFind n u a).1 b).2 := (hiff1 b _).mpr hrb1
  have hiff12 : ∀ y s, RootOf u y s ↔ RootOf (ufFind n (ufFind n u a).1 b).1 y s :=
    fun y s => (hiff1 y s).trans (hiff2 y s)
  have hra2 : RootOf (ufFind n (ufFind n u a).1 b).1 a (ufFind n u a).2 := (hiff12 a _).mp hra
  have hrb2 : RootOf (ufFind n (ufFind n u a).1 b).1 b (ufFind n (ufFind n u a).1 b).2 :=
    (hiff12 b _).mp hrb
  have hran : (ufFind n u a).2 < n := rootOf_lt n _ hwf2.2.1 ha hra2
  have hrbn : (ufFind n (ufFind n u a).1 b).2 < n := rootOf_lt n _ hwf2.2.1 hb hrb2
  have hss : ∀ y z, SameSet u y z ↔ SameSet (ufFind n (ufFind n u a).1 b).1 y z :=
    sameSet_iff_of_rootIff _ _ hiff12
  rw [ufUnion_eq]
  by_cases he : (ufFind n u a).2 = (ufFind n (ufFind n u a).1 b).2
  · rw [if_pos he]
    refine ⟨hwf2, fun y z => ?_⟩
    rw [← hss y z]
    have hab : SameSet u a b := ⟨(ufFind n u a).2, hra, by rw [he]; exact hrb⟩
    constructor
    · exact Or.inl
    · intro h
      rcases h with h | ⟨h1, h2⟩ | ⟨h1, h2⟩
      · exact h
      · exact sameSet_trans u (sameSet_trans u h1 hab) h2
      · exact sameSet_trans u (sameSet_trans u h1 (sameSet_symm u hab)) h2
  · rw [if_neg he]
    by_cases hc1 : (ufFind n (ufFind n u a).1 b).1.rank.getD ((ufFind n u a).2) 0
        < (ufFind n (ufFind n u a).1 b).1.rank.getD ((ufFind n (ufFind n u a).1 b).2) 0
    · rw [if_pos hc1]
      have hlink := link_sameSet n (ufFind n (ufFind n u a).1 b).1 a b
        ((ufFind n u a).2) ((ufFind n (ufFind n u a).1 b).2) hwf2 hra2 hrb2 he hran hrbn
        _ rfl
      refine ⟨hlink.1, fun y z => ?_⟩
      rw [hlink.2 y z, ← hss y z, ← hss y a, ← hss b z, ← hss y b, ← hss a z]
    · rw [if_neg hc1]
      by_cases hc2 : (ufFind n (ufFind n u a).1 b).1.rank.getD ((ufFind n (ufFind n u a).1 b).2) 0
          < (ufFind n (ufFind n u a).1 b).1.rank.getD ((ufFind n u a).2) 0
      · rw [if_pos hc2]
        have hlink := link_sameSet n (ufFind n (ufFind n u a).1 b).1 b a
          ((ufFind n (ufFind n u a).1 b).2) ((ufFind n u a).2) hwf2 hrb2 hra2
          (fun hcon => he hcon.symm) hrbn hran _ rfl
        refine ⟨hlink.1, fun y z => ?_⟩
        rw [hlink.2 y z, ← hss y z, ← hss y b, ← hss a z, ← hss y a, ← hss b z]
        tauto
      · rw [if_neg hc2]
        have hlink := link_sameSet n (ufFind n (ufFind n u a).1 b).1 b a
          ((ufFind n (ufFind n u a).1 b).2) ((ufFind n u a).2) hwf2 hrb2 hra2
          (fun hcon => he hcon.symm) hrbn hran
          ({ (ufFind n (ufFind n u a).1 b).1 with
              parent := (ufFind n (ufFind n u a).1 b).1.parent.set
                ((ufFind n (ufFind n u a).1 b).2) ((ufFind n u a).2),
              rank := (ufFind n (ufFind n u a).1 b).1.rank.set ((ufFind n u a).2)
                ((ufFind n (ufFind n u a).1 b).1.rank.getD ((ufFind n u a).2) 0 + 1) })
          rfl
        refine ⟨hlink.1, fun y z => ?_⟩
        rw [hlink.2 y z, ← hss y z, ← hss y b, ← hss a z, ← hss y a, ← hss b z]
        tauto

/-! ### The pair loop realises connected components of the threshold graph -/

theorem connGen_mono {α : Type} {r s : α → α → Prop} (h : ∀ a b, r a b → ConnGen s a b) :
    ∀ {x y}, ConnGen r x y → ConnGen s x y := by
  intro x y hxy
  induction hxy with
  | rel hr => exact h _ _ hr
  | refl a => exact ConnGen.refl a
  | symm _ ih => exact ConnGen.symm ih
  | trans _ _ ih1 ih2 => exact ConnGen.trans ih1 ih2

theorem connGen_of_equiv {r : ℕ → ℕ → Prop} (hrefl : ∀ x, r x x)
    (hsymm : ∀ {x y}, r x y → r y x) (htrans : ∀ {x y z}, r x y → r y z → r x z) :
    ∀ {x y}, ConnGen r x y → r x y := by
  intro x y h
  induction h with
  | rel h => exact h
  | refl a => exact hrefl a
  | symm _ ih => exact hsymm ih
  | trans _ _ ih1 ih2 => exact htrans ih1 ih2

theorem pm_newUnionFind (n x : ℕ) : pm (newUnionFind n) x = x := by
  unfold pm newUnionFind
  rcases lt_or_le x n with h | h
  · simp only [List.getD_eq_getElem?_getD]
    rw [List.getElem?_range h]
    rfl
  · simp only [List.getD_eq_getElem?_getD]
    rw [List.getElem?_eq_none (by simpa using h)]
    rfl

theorem WFuf_new (n : ℕ) : WFuf n (newUnionFind n) :=
  ⟨by simp [newUnionFind], fun x hx => by rw [pm_newUnionFind]; exact hx,
    fun x => ⟨x, rootOf_self _ (pm_newUnionFind n x)⟩⟩

theorem sameSet_new (n : ℕ) (y z : ℕ) : SameSet (newUnionFind n) y z ↔ y = z := by
  constructor
  · rintro ⟨r, hy, hz⟩
    have h1 := rootOf_unique _ hy (rootOf_self _ (pm_newUnionFind n y))
    have h2 := rootOf_unique _ hz (rootOf_self _ (pm_newUnionFind n z))
    omega
  · rintro rfl
    exact sameSet_refl _ (WFuf_new n).2.2 y

theorem HammingDistance_comm (x y : ℕ) : HammingDistance x y = HammingDistance y x := by
  unfold HammingDistance
  rw [Nat.xor_comm]

/-- Index pairs `(i, j)` with `i < j < n`, in the traversal order of the nested loops
of dedup.go lines 34-46. -/
def allPairs (n : ℕ) : List (ℕ × ℕ) :=
  (List.range n).flatMap (fun i => (List.range' (i + 1) (n - (i + 1))).map (fun j => (i, j)))

theorem foldl_flatMap_eq {α β γ : Type} (g : β → α → β) (f : γ → List α)
    (l : List γ) (init : β) :
    (l.flatMap f).foldl g init = l.foldl (fun acc i => (f i).foldl g acc) init := by
  induction l generalizing init with
  | nil => rfl
  | cons x xs ih => simp [List.flatMap_cons, List.foldl_append, ih]

theorem pairsFold_eq_unionList (files : List FileMeta) (t : ℤ) :
    pairsFold files t
      = (allPairs files.length).foldl
          (fun v p =>
            if (HammingDistance (files.getD p.1 default).FP (files.getD p.2 default).FP : ℤ) ≤ t
            then ufUnion files.length v p.1 p.2 else v)
          (newUnionFind files.length) := by
  unfold pairsFold allPairs
  rw [foldl_flatMap_eq]
  congr 1
  funext u i
  rw [List.foldl_map]

theorem mem_allPairs (n : ℕ) (p : ℕ × ℕ) :
    p ∈ allPairs n ↔ p.1 < p.2 ∧ p.2 < n := by
  unfold allPairs
  rcases p with ⟨i, j⟩
  simp only [List.mem_flatMap, List.mem_map, List.mem_range, List.mem_range']
  constructor
  · rintro ⟨i', hi', ⟨j', ⟨m, hm, rfl⟩, heq⟩⟩
    obtain ⟨rfl, rfl⟩ := Prod.mk.injEq i' _ i j ▸ And.intro (congrArg Prod.fst heq) (congrArg Prod.snd heq)
    simp only []
    omega
  · rintro ⟨hij, hjn⟩
    refine ⟨i, by omega, ⟨j, ⟨j - (i + 1), by omega, by omega⟩, rfl⟩⟩

theorem unionList_spec (n : ℕ) (cond : ℕ × ℕ → Prop) [DecidablePred cond] :
    ∀ (L : List (ℕ × ℕ)) (u : UnionFind), WFuf n u → (∀ p ∈ L, p.1 < n ∧ p.2 < n) →
      WFuf n (L.foldl (fun v p => if cond p then ufUnion n v p.1 p.2 else v) u) ∧
      ∀ y z, SameSet (L.foldl (fun v p => if cond p then ufUnion n v p.1 p.2 else v) u) y z ↔
        ConnGen (fun i j => SameSet u i j ∨
          (((i, j) ∈ L ∧ cond (i, j)) ∨ ((j, i) ∈ L ∧ cond (j, i)))) y z := by
  intro L
  induction L with
  | nil =>
    intro u hwf _
    simp only [List.foldl_nil]
    refine ⟨hwf, fun y z => ⟨fun h => ConnGen.rel (Or.inl h), fun h => ?_⟩⟩
    have h2 : ConnGen (fun i j : ℕ => SameSet u i j) y z := by
      refine connGen_mono ?_ h
      intro a b hab
      rcases hab with h' | ⟨hm, _⟩ | ⟨hm, _⟩
      · exact ConnGen.rel h'
      · simp at hm
      · simp at hm
    exact connGen_of_equiv (sameSet_refl u hwf.2.2)
      (fun h => sameSet_symm u h) (fun h1 h2 => sameSet_trans u h1 h2) h2
  | cons p L ih =>
    intro u hwf hmem
    have hp : p.1 < n ∧ p.2 < n := hmem p (List.mem_cons_self p L)
    have hmemL : ∀ q ∈ L, q.1 < n ∧ q.2 < n := fun q hq => hmem q (List.mem_cons_of_mem p hq)
    simp only [List.foldl_cons]
    by_cases hc : cond p
    · rw [if_pos hc]
      obtain ⟨hwfU, hcharU⟩ := ufUnion_spec n u p.1 p.2 hwf hp.1 hp.2
      obtain ⟨hwfF, hcharF⟩ := ih (ufUnion n u p.1 p.2) hwfU hmemL
      have hedge : ConnGen (fun i j => SameSet u i j ∨
          (((i, j) ∈ p :: L ∧ cond (i, j)) ∨ ((j, i) ∈ p :: L ∧ cond (j, i)))) p.1 p.2 := by
        refine ConnGen.rel (Or.inr (Or.inl ⟨?_, ?_⟩))
        · exact List.mem_cons_self p L
        · exact hc
      refine ⟨hwfF, fun y z => (hcharF y z).trans ⟨?_, ?_⟩⟩
      · apply connGen_mono
        intro c d hcd
        rcases hcd with hss | ⟨hm, hcd'⟩ | ⟨hm, hcd'⟩
        · rcases (hcharU c d).mp hss with h1 | ⟨h1, h2⟩ | ⟨h1, h2⟩
          · exact ConnGen.rel (Or.inl h1)
          · exact ConnGen.trans (ConnGen.rel (Or.inl h1))
              (ConnGen.trans hedge (ConnGen.rel (Or.inl h2)))
          · exact ConnGen.trans (ConnGen.rel (Or.inl h1))
              (ConnGen.trans (ConnGen.symm hedge) (ConnGen.rel (Or.inl h2)))
        · exact ConnGen.rel (Or.inr (Or.inl ⟨List.mem_cons_of_mem p hm, hcd'⟩))
        · exact ConnGen.rel (Or.inr (Or.inr ⟨List.mem_cons_of_mem p hm, hcd'⟩))
      · apply connGen_mono
        intro c d hcd
        rcases hcd with hss | ⟨hm, hcd'⟩ | ⟨hm, hcd'⟩
        · exact ConnGen.rel (Or.inl ((hcharU c d).mpr (Or.inl hss)))
        · rcases List.mem_cons.mp hm with heq | hmL
          · have hc1 : c = p.1 := by rw [← heq]
            have hd1 : d = p.2 := by rw [← heq]
            have hsame : SameSet (ufUnion n u p.1 p.2) c d := by
              apply (hcharU c d).mpr
              refine Or.inr (Or.inl ⟨?_, ?_⟩)
              · rw [hc1]
                exact sameSet_refl u hwf.2.2 p.1
              · rw [hd1]
                exact sameSet_refl u hwf.2.2 p.2
            exact ConnGen.rel (Or.inl hsame)
          · exact ConnGen.rel (Or.inr (Or.inl ⟨hmL, hcd'⟩))
        · rcases List.mem_cons.mp hm with heq | hmL
          · have hd1 : d = p.1 := by rw [← heq]
            have hc1 : c = p.2 := by rw [← heq]
            have hsame : SameSet (ufUnion n u p.1 p.2) c d := by
              apply (hcharU c d).mpr
              refine Or.inr (Or.inr ⟨?_, ?_⟩)
              · rw [hc1]
                exact sameSet_refl u hwf.2.2 p.2
              · rw [hd1]
                exact sameSet_refl u hwf.2.2 p.1
            exact ConnGen.rel (Or.inl hsame)
          · exact ConnGen.rel (Or.inr (Or.inr ⟨hmL, hcd'⟩))
    · rw [if_neg hc]
      obtain ⟨hwfF, hcharF⟩ := ih u hwf hmemL
      refine ⟨hwfF, fun y z => (hcharF y z).trans ⟨?_, ?_⟩⟩
      · apply connGen_mono
        intro c d hcd
        rcases hcd with hss | ⟨hm, hcd'⟩ | ⟨hm, hcd'⟩
        · exact ConnGen.rel (Or.inl hss)
        · exact ConnGen.rel (Or.inr (Or.inl ⟨List.mem_cons_of_mem p hm, hcd'⟩))
        · exact ConnGen.rel (Or.inr (Or.inr ⟨List.mem_cons_of_mem p hm, hcd'⟩))
      · apply connGen_mono
        intro c d hcd
        rcases hcd with hss | ⟨hm, hcd'⟩ | ⟨hm, hcd'⟩
        · exact ConnGen.rel (Or.inl hss)
        · rcases List.mem_cons.mp hm with heq | hmL
          · rw [heq] at hcd'
            exact absurd hcd' hc
          · exact ConnGen.rel (Or.inr (Or.inl ⟨hmL, hcd'⟩))
        · rcases List.mem_cons.mp hm with heq | hmL
          · rw [heq] at hcd'
            exact absurd hcd' hc
          · exact ConnGen.rel (Or.inr (Or.inr ⟨hmL, hcd'⟩))

/-- The grouping pass of `SelectKeep` computes exactly the connected components of
the Hamming-threshold graph: two indices get the same union-find class iff they are
joined by a chain of threshold edges. -/
theorem pairsFold_sameSet (files : List FileMeta) (t : ℤ) :
    WFuf files.length (pairsFold files t) ∧
      ∀ y z, SameSet (pairsFold files t) y z ↔ ConnGen (hamEdge files t) y z := by
  rw [pairsFold_eq_unionList]
  obtain ⟨hwf, hchar⟩ := unionList_spec files.length
    (fun p => (HammingDistance (files.getD p.1 default).FP (files.getD p.2 default).FP : ℤ) ≤ t)
    (allPairs files.length) (newUnionFind files.length) (WFuf_new files.length)
    (fun p hp => by
      have := (mem_allPairs files.length p).mp hp
      omega)
  refine ⟨hwf, fun y z => (hchar y z).trans ⟨?_, ?_⟩⟩
  · apply connGen_mono
    intro c d hcd
    rcases hcd with hss | ⟨hm, hcd'⟩ | ⟨hm, hcd'⟩
    · rw [sameSet_new files.length c d] at hss
      rw [hss]
      exact ConnGen.refl d
    · have hmm := (mem_allPairs files.length (c, d)).mp hm
      exact ConnGen.rel ⟨by exact lt_trans hmm.1 hmm.2, hmm.2, hcd'⟩
    · have hmm := (mem_allPairs files.length (d, c)).mp hm
      refine ConnGen.symm (ConnGen.rel ⟨by exact lt_trans hmm.1 hmm.2, hmm.2, ?_⟩)
      exact hcd'
  · apply connGen_mono
    intro c d hcd
    obtain ⟨hcn, hdn, hdist⟩ := hcd
    rcases Nat.lt_trichotomy c d with h | h | h
    · refine ConnGen.rel (Or.inr (Or.inl ⟨(mem_allPairs files.length (c, d)).mpr ⟨h, hdn⟩, hdist⟩))
    · rw [h]
      exact ConnGen.refl d
    · refine ConnGen.rel (Or.inr (Or.inr ⟨(mem_allPairs files.length (d, c)).mpr ⟨h, hcn⟩, ?_⟩))
      rw [show (HammingDistance (files.getD d default).FP (files.getD c default).FP)
          = HammingDistance (files.getD c default).FP (files.getD d default).FP
        from HammingDistance_comm _ _]
      exact hdist

theorem rootsPass_go (n : ℕ) :
    ∀ (cnt s : ℕ) (u : UnionFind) (acc : List ℕ), WFuf n u → s + cnt = n →
      WFuf n ((List.range' s cnt).foldl
        (fun a i =>
          let fr := ufFind n a.1 i
          (fr.1, a.2 ++ [fr.2])) (u, acc)).1 ∧
      (∀ y r, RootOf u y r ↔
        RootOf ((List.range' s cnt).foldl
          (fun a i =>
            let fr := ufFind n a.1 i
            (fr.1, a.2 ++ [fr.2])) (u, acc)).1 y r) ∧
      ∃ rs : List ℕ,
        ((List.range' s cnt).foldl
          (fun a i =>
            let fr := ufFind n a.1 i
            (fr.1, a.2 ++ [fr.2])) (u, acc)).2 = acc ++ rs ∧
        rs.length = cnt ∧ ∀ k, k < cnt → RootOf u (s + k) (rs.getD k 0) := by
  intro cnt
  induction cnt with
  | zero =>
    intro s u acc hwf _
    refine ⟨hwf, fun y r => Iff.rfl, [], ?_, rfl, fun k hk => absurd hk (by omega)⟩
    simp
  | succ cnt ih =>
    intro s u acc hwf hs
    have hsn : s < n := by omega
    obtain ⟨hrs, hwf1, hiff1, _⟩ := ufFind_spec n u s hwf hsn
    rw [List.range'_succ, List.foldl_cons]
    obtain ⟨hwfF, hiffF, rs', hres, hlen', hroots'⟩ :=
      ih (s + 1) (ufFind n u s).1 (acc ++ [(ufFind n u s).2]) hwf1 (by omega)
    refine ⟨hwfF, ?_, (ufFind n u s).2 :: rs', ?_, by simpa using hlen', ?_⟩
    · intro y r
      exact (hiff1 y r).trans (hiffF y r)
    · rw [hres, List.append_assoc]
      rfl
    · intro k hk
      rcases k with _ | k
      · simpa using hrs
      · have hk' : k < cnt := by omega
        have := hroots' k hk'
        have heq : s + 1 + k = s + (k + 1) := by omega
        rw [heq] at this
        rw [show ((ufFind n u s).2 :: rs').getD (k + 1) 0 = rs'.getD k 0 from rfl]
        exact (hiff1 _ _).mpr this

theorem groupRoots_spec (files : List FileMeta) (t : ℤ) :
    (groupRoots files t).length = files.length ∧
      ∀ i, i < files.length →
        RootOf (pairsFold files t) i ((groupRoots files t).getD i files.length) := by
  have hwf := (pairsFold_sameSet files t).1
  obtain ⟨_, _, rs, hres, hlen, hroots⟩ :=
    rootsPass_go files.length files.length 0 (pairsFold files t) [] hwf (by omega)
  have hgr : groupRoots files t = rs := by
    unfold groupRoots rootsPass
    rw [List.range_eq_range']
    rw [hres]
    rfl
  constructor
  · rw [hgr, hlen]
  · intro i hi
    have h0 := hroots i (by omega)
    rw [Nat.zero_add] at h0
    rw [hgr]
    have hilen : i < rs.length := by rw [hlen]; exact hi
    rw [getD_of_lt rs files.length hilen]
    rw [getD_of_lt rs (0 : ℕ) hilen] at h0
    exact h0

theorem sameGroup_iff_sameSet (files : List FileMeta) (t : ℤ) {i j : ℕ}
    (hi : i < files.length) (hj : j < files.length) :
    sameGroup files t i j ↔ SameSet (pairsFold files t) i j := by
  obtain ⟨hlen, hroots⟩ := groupRoots_spec files t
  unfold sameGroup
  constructor
  · intro h
    refine ⟨(groupRoots files t).getD i files.length, hroots i hi, ?_⟩
    rw [h]
    exact hroots j hj
  · rintro ⟨r, hir, hjr⟩
    rw [rootOf_unique _ (hroots i hi) hir, rootOf_unique _ (hroots j hj) hjr]

/-- Same cluster iff joined by a chain of Hamming-threshold edges. -/
theorem sameGroup_iff_connGen (files : List FileMeta) (t : ℤ) {i j : ℕ}
    (hi : i < files.length) (hj : j < files.length) :
    sameGroup files t i j ↔ ConnGen (hamEdge files t) i j :=
  (sameGroup_iff_sameSet files t hi hj).trans ((pairsFold_sameSet files t).2 i j)

/-! ### The representative selection of SelectKeep -/

theorem keepLe_refl (a : FileMeta) : keepLe a a := Or.inr ⟨rfl, le_refl _⟩

theorem keepLe_total (a b : FileMeta) : keepLe a b ∨ keepLe b a := by
  unfold keepLe
  rcases lt_trichotomy a.Size b.Size with h | h | h
  · right; left; exact h
  · rcases le_total a.Path.data b.Path.data with hp | hp
    · left; right; exact ⟨h, hp⟩
    · right; right; exact ⟨h.symm, hp⟩
  · left; left; exact h

theorem keepLe_trans {a b c : FileMeta} (h1 : keepLe a b) (h2 : keepLe b c) : keepLe a c := by
  unfold keepLe at h1 h2 ⊢
  rcases h1 with h1 | ⟨h1, h1p⟩ <;> rcases h2 with h2 | ⟨h2, h2p⟩
  · left; exact lt_trans h2 h1
  · left; rw [← h2]; exact h1
  · left; rw [h1]; exact h2
  · right; exact ⟨h1.trans h2, le_trans h1p h2p⟩

theorem keepLe_antisymm_sp {a b : FileMeta} (h1 : keepLe a b) (h2 : keepLe b a) :
    a.Size = b.Size ∧ a.Path = b.Path := by
  unfold keepLe at h1 h2
  rcases h1 with h1 | ⟨h1, h1p⟩ <;> rcases h2 with h2 | ⟨h2, h2p⟩
  · exact absurd (lt_trans h1 h2) (lt_irrefl _)
  · omega
  · omega
  · exact ⟨h1, String.ext (le_antisymm h1p h2p)⟩

instance (files : List FileMeta) : IsTotal ℕ (idxLe files) :=
  ⟨fun _ _ => keepLe_total _ _⟩

instance (files : List FileMeta) : IsTrans ℕ (idxLe files) :=
  ⟨fun _ _ _ h1 h2 => keepLe_trans h1 h2⟩

instance : IsTotal FileMeta pathLe := ⟨fun a b => le_total a.Path.data b.Path.data⟩

instance : IsTrans FileMeta pathLe := ⟨fun _ _ _ h1 h2 => le_trans h1 h2⟩

instance : IsAntisymm FileMeta pathLt :=
  ⟨fun _ _ h1 h2 => absurd (lt_trans h1 h2) (lt_irrefl _)⟩

theorem path_inj (files : List FileMeta) (hnodup : (files.map FileMeta.Path).Nodup)
    {a b : FileMeta} (ha : a ∈ files) (hb : b ∈ files) (hp : a.Path = b.Path) : a = b := by
  obtain ⟨i, hi, hieq⟩ := List.getElem_of_mem ha
  obtain ⟨j, hj, hjeq⟩ := List.getElem_of_mem hb
  have hmi : i < (files.map FileMeta.Path).length := by simpa using hi
  have hmj : j < (files.map FileMeta.Path).length := by simpa using hj
  have hpath : (files.map FileMeta.Path).get ⟨i, hmi⟩ = (files.map FileMeta.Path).get ⟨j, hmj⟩ := by
    simp only [List.get_eq_getElem, List.getElem_map]
    rw [hieq, hjeq]
    exact hp
  have hij : i = j := by
    have := (List.Nodup.get_inj_iff hnodup).mp hpath
    simpa using this
  subst hij
  rw [← hieq, ← hjeq]

theorem files_nodup (files : List FileMeta) (hnodup : (files.map FileMeta.Path).Nodup) :
    files.Nodup := List.Nodup.of_map _ hnodup

theorem getD_mem (files : List FileMeta) {i : ℕ} (hi : i < files.length) :
    files.getD i default ∈ files := by
  rw [getD_of_lt _ _ hi]
  exact List.getElem_mem hi

theorem getD_inj (files : List FileMeta) (hnd : files.Nodup) {i j : ℕ}
    (hi : i < files.length) (hj : j < files.length)
    (h : files.getD i default = files.getD j default) : i = j := by
  rw [getD_of_lt _ _ hi, getD_of_lt _ _ hj] at h
  have hg : files.get ⟨i, hi⟩ = files.get ⟨j, hj⟩ := by
    simpa [List.get_eq_getElem] using h
  have := (List.Nodup.get_inj_iff hnd).mp hg
  simpa using this

theorem mem_groupKeys_go (l : List ℕ) : ∀ (acc : List ℕ) (x : ℕ),
    x ∈ l.foldl insertKey acc ↔ x ∈ acc ∨ x ∈ l := by
  induction l with
  | nil =>
    intro acc x
    simp
  | cons a l ih =>
    intro acc x
    rw [List.foldl_cons, ih]
    unfold insertKey
    by_cases h : a ∈ acc
    · rw [if_pos h]
      simp only [List.mem_cons]
      constructor
      · rintro (hx | hx)
        · exact Or.inl hx
        · exact Or.inr (Or.inr hx)
      · rintro (hx | rfl | hx)
        · exact Or.inl hx
        · exact Or.inl h
        · exact Or.inr hx
    · rw [if_neg h]
      simp only [List.mem_append, List.mem_cons, List.not_mem_nil, or_false, List.mem_singleton]
      tauto

theorem mem_groupKeys (l : List ℕ) (x : ℕ) : x ∈ groupKeys l ↔ x ∈ l := by
  unfold groupKeys
  rw [mem_groupKeys_go]
  simp

theorem groupKeys_nodup_go (l : List ℕ) : ∀ acc : List ℕ, acc.Nodup →
    (l.foldl insertKey acc).Nodup := by
  induction l with
  | nil => intro acc h; exact h
  | cons a l ih =>
    intro acc h
    rw [List.foldl_cons]
    apply ih
    unfold insertKey
    by_cases ha : a ∈ acc
    · rw [if_pos ha]
      exact h
    · rw [if_neg ha]
      exact List.Nodup.append h (List.nodup_singleton a)
        (fun x hx hxa => ha ((List.mem_singleton.mp hxa) ▸ hx))

theorem groupKeys_nodup (l : List ℕ) : (groupKeys l).Nodup :=
  groupKeys_nodup_go l [] List.nodup_nil

/-- Indices assigned to cluster root `r`, in increasing order (the `groups[r]` slice). -/
def clusterIdxs (files : List FileMeta) (t : ℤ) (r : ℕ) : List ℕ :=
  (List.range files.length).filter (fun i => (groupRoots files t).getD i files.length = r)

/-- The record kept for cluster root `r`: first index after sorting the cluster by
the size-then-path comparator. -/
def clusterKeep (files : List FileMeta) (t : ℤ) (r : ℕ) : FileMeta :=
  files.getD ((List.insertionSort (idxLe files) (clusterIdxs files t r)).headD 0) default

theorem SelectKeep_eq (files : List FileMeta) (t : ℤ) (h : ¬ files.length = 0) :
    SelectKeep files t
      = List.insertionSort pathLe
          ((groupKeys (groupRoots files t)).map (clusterKeep files t)) := by
  unfold SelectKeep clusterKeep clusterIdxs
  rw [if_neg h]

theorem mem_clusterIdxs (files : List FileMeta) (t : ℤ) (r i : ℕ) :
    i ∈ clusterIdxs files t r ↔
      i < files.length ∧ (groupRoots files t).getD i files.length = r := by
  unfold clusterIdxs
  rw [List.mem_filter, List.mem_range]
  simp

theorem clusterKeep_spec (files : List FileMeta) (t : ℤ) (r : ℕ)
    (hr : r ∈ groupRoots files t) :
    ∃ h, h < files.length ∧ (groupRoots files t).getD h files.length = r ∧
      clusterKeep files t r = files.getD h default ∧
      ∀ j, j < files.length → (groupRoots files t).getD j files.length = r →
        idxLe files h j := by
  obtain ⟨i0, hi0len, hi0⟩ := List.getElem_of_mem hr
  have hlen := (groupRoots_spec files t).1
  have hi0n : i0 < files.length := by omega
  have hi0d : (groupRoots files t).getD i0 files.length = r := by
    rw [getD_of_lt _ _ hi0len]
    exact hi0
  have hmem : i0 ∈ clusterIdxs files t r := (mem_clusterIdxs files t r i0).mpr ⟨hi0n, hi0d⟩
  have hperm := List.perm_insertionSort (idxLe files) (clusterIdxs files t r)
  have hne : List.insertionSort (idxLe files) (clusterIdxs files t r) ≠ [] := by
    intro hcon
    have hin : i0 ∈ List.insertionSort (idxLe files) (clusterIdxs files t r) :=
      hperm.mem_iff.mpr hmem
    rw [hcon] at hin
    simp at hin
  rcases hsrt : List.insertionSort (idxLe files) (clusterIdxs files t r) with _ | ⟨hh, tl⟩
  · exact absurd hsrt hne
  · have hsorted := List.sorted_insertionSort (idxLe files) (clusterIdxs files t r)
    rw [hsrt] at hsorted hperm
    have hhmem := (mem_clusterIdxs files t r hh).mp (hperm.mem_iff.mp (List.mem_cons_self hh tl))
    refine ⟨hh, hhmem.1, hhmem.2, ?_, ?_⟩
    · unfold clusterKeep
      rw [hsrt]
      rfl
    · intro j hj hjr
      have hjmem : j ∈ hh :: tl := hperm.mem_iff.mpr ((mem_clusterIdxs files t r j).mpr ⟨hj, hjr⟩)
      rcases List.mem_cons.mp hjmem with rfl | hjtl
      · exact keepLe_refl _
      · exact List.rel_of_sorted_cons hsorted j hjtl

theorem sameGroup_symm' (files : List FileMeta) (t : ℤ) {i j : ℕ}
    (h : sameGroup files t i j) : sameGroup files t j i := Eq.symm h

theorem sameGroup_trans' (files : List FileMeta) (t : ℤ) {i j k : ℕ}
    (h1 : sameGroup files t i j) (h2 : sameGroup files t j k) : sameGroup files t i k :=
  Eq.trans h1 h2

/-- The kept records are exactly the per-cluster optima: a record is in the output
iff it sits at some index whose record weakly dominates (larger size, then smaller
path) every record sharing its cluster. -/
theorem mem_selectKeep_iff (files : List FileMeta) (t : ℤ)
    (hne : files.length ≠ 0) (hnodup : (files.map FileMeta.Path).Nodup) (m : FileMeta) :
    m ∈ SelectKeep files t ↔
      ∃ i, i < files.length ∧ files.getD i default = m ∧
        ∀ j, j < files.length → sameGroup files t i j → keepLe m (files.getD j default) := by
  obtain ⟨hlen, hroots⟩ := groupRoots_spec files t
  rw [SelectKeep_eq files t hne]
  rw [(List.perm_insertionSort pathLe _).mem_iff]
  rw [List.mem_map]
  constructor
  · rintro ⟨r, hrkeys, hrm⟩
    have hrroots : r ∈ groupRoots files t := (mem_groupKeys _ r).mp hrkeys
    obtain ⟨h, hhn, hhr, hck, hmin⟩ := clusterKeep_spec files t r hrroots
    refine ⟨h, hhn, ?_, ?_⟩
    · rw [← hrm, hck]
    · intro j hj hsg
      unfold sameGroup at hsg
      have hjr : (groupRoots files t).getD j files.length = r := by
        rw [← hsg]
        exact hhr
      have hle := hmin j hj hjr
      unfold idxLe at hle
      rw [← hrm, hck]
      exact hle
  · rintro ⟨i, hi, him, hmin⟩
    have hilen : i < (groupRoots files t).length := by omega
    have hrroots : (groupRoots files t).getD i files.length ∈ groupRoots files t := by
      rw [getD_of_lt _ _ hilen]
      exact List.getElem_mem hilen
    refine ⟨(groupRoots files t).getD i files.length, (mem_groupKeys _ _).mpr hrroots, ?_⟩
    obtain ⟨h, hhn, hhr, hck, hminh⟩ := clusterKeep_spec files t _ hrroots
    have hsg : sameGroup files t i h := by
      unfold sameGroup
      rw [hhr]
    have h1 : keepLe m (files.getD h default) := hmin h hhn hsg
    have h2 : keepLe (files.getD h default) m := by
      have hle := hminh i hi rfl
      unfold idxLe at hle
      rw [him] at hle
      exact hle
    obtain ⟨hsz, hpath⟩ := keepLe_antisymm_sp h2 h1
    rw [hck]
    exact path_inj files hnodup (getD_mem files hhn) (him ▸ getD_mem files hi) hpath

theorem selectKeep_sorted (files : List FileMeta) (t : ℤ) :
    List.Sorted pathLe (SelectKeep files t) := by
  by_cases h : files.length = 0
  · unfold SelectKeep
    rw [if_pos h]
    exact List.sorted_nil
  · rw [SelectKeep_eq files t h]
    exact List.sorted_insertionSort pathLe _

theorem selectKeep_mem_files (files : List FileMeta) (t : ℤ) {m : FileMeta}
    (hm : m ∈ SelectKeep files t) : m ∈ files := by
  by_cases hne : files.length = 0
  · unfold SelectKeep at hm
    rw [if_pos hne] at hm
    simp at hm
  · rw [SelectKeep_eq files t hne, (List.perm_insertionSort pathLe _).mem_iff,
      List.mem_map] at hm
    obtain ⟨r, hrkeys, hrm⟩ := hm
    obtain ⟨h, hhn, _, hck, _⟩ :=
      clusterKeep_spec files t r ((mem_groupKeys _ r).mp hrkeys)
    rw [← hrm, hck]
    exact getD_mem files hhn

theorem selectKeep_nodup (files : List FileMeta) (t : ℤ)
    (hnodup : (files.map FileMeta.Path).Nodup) : (SelectKeep files t).Nodup := by
  by_cases hne : files.length = 0
  · unfold SelectKeep
    rw [if_pos hne]
    exact List.nodup_nil
  · rw [SelectKeep_eq files t hne]
    refine (List.perm_insertionSort pathLe _).nodup_iff.mpr ?_
    refine List.Nodup.map_on ?_ (groupKeys_nodup _)
    intro r1 h1 r2 h2 heq
    obtain ⟨a1, ha1n, ha1r, hck1, _⟩ :=
      clusterKeep_spec files t r1 ((mem_groupKeys _ _).mp h1)
    obtain ⟨a2, ha2n, ha2r, hck2, _⟩ :=
      clusterKeep_spec files t r2 ((mem_groupKeys _ _).mp h2)
    have ha12 : a1 = a2 := by
      refine getD_inj files (files_nodup files hnodup) ha1n ha2n ?_
      rw [← hck1, ← hck2, heq]
    rw [← ha1r, ← ha2r, ha12]

/-- Exactly one output record per cluster. -/
theorem selectKeep_unique_per_cluster (files : List FileMeta) (t : ℤ)
    (hne : files.length ≠ 0) (hnodup : (files.map FileMeta.Path).Nodup)
    (i : ℕ) (hi : i < files.length) :
    ∃! m, m ∈ SelectKeep files t ∧
      ∃ j, j < files.length ∧ files.getD j default = m ∧ sameGroup files t i j := by
  have hilen : i < (groupRoots files t).length := by
    rw [(groupRoots_spec files t).1]
    exact hi
  have hrroots : (groupRoots files t).getD i files.length ∈ groupRoots files t := by
    rw [getD_of_lt _ _ hilen]
    exact List.getElem_mem hilen
  obtain ⟨h, hhn, hhr, hck, hminh⟩ := clusterKeep_spec files t _ hrroots
  have hsg : sameGroup files t i h := by
    unfold sameGroup
    rw [hhr]
  refine ⟨files.getD h default, ⟨?_, h, hhn, rfl, hsg⟩, ?_⟩
  · rw [mem_selectKeep_iff files t hne hnodup]
    refine ⟨h, hhn, rfl, ?_⟩
    intro j hj hsgj
    unfold sameGroup at hsgj
    have hjr : (groupRoots files t).getD j files.length
        = (groupRoots files t).getD i files.length := by
      rw [← hsgj]
      exact hhr
    have hle := hminh j hj hjr
    unfold idxLe at hle
    exact hle
  · rintro m2 ⟨hm2, j2, hj2, hj2m, hsgj2⟩
    rw [mem_selectKeep_iff files t hne hnodup] at hm2
    obtain ⟨i2, hi2, hi2m, hmin2⟩ := hm2
    have hij2 : i2 = j2 := getD_inj files (files_nodup files hnodup) hi2 hj2
      (by rw [hi2m, hj2m])
    have hsg1 : sameGroup files t i2 h :=
      sameGroup_trans' files t (hij2 ▸ sameGroup_symm' files t hsgj2) hsg
    have h1 : keepLe m2 (files.getD h default) := hmin2 h hhn hsg1
    have h2 : keepLe (files.getD h default) m2 := by
      have hj2r : (groupRoots files t).getD j2 files.length
          = (groupRoots files t).getD i files.length := Eq.symm hsgj2
      have hle := hminh j2 hj2 hj2r
      unfold idxLe at hle
      rw [hj2m] at hle
      exact hle
    obtain ⟨hsz, hpath⟩ := keepLe_antisymm_sp h1 h2
    exact path_inj files hnodup (hi2m ▸ getD_mem files hi2) (getD_mem files hhn) hpath

/-! ### Record-level connectivity -/

theorem connGen_idx_to_rec (files : List FileMeta) (t : ℤ) {i j : ℕ}
    (h : ConnGen (hamEdge files t) i j) :
    ConnGen (recEdge files t) (files.getD i default) (files.getD j default) := by
  induction h with
  | rel h => exact ConnGen.rel ⟨getD_mem files h.1, getD_mem files h.2.1, h.2.2⟩
  | refl a => exact ConnGen.refl _
  | symm _ ih => exact ConnGen.symm ih
  | trans _ _ ih1 ih2 => exact ConnGen.trans ih1 ih2

theorem connGen_rec_to_idx (files : List FileMeta) (t : ℤ) {a b : FileMeta}
    (h : ConnGen (recEdge files t) a b) :
    a = b ∨ (a ∈ files ∧ b ∈ files ∧ ∀ i j, i < files.length → j < files.length →
      files.getD i default = a → files.getD j default = b → ConnGen (hamEdge files t) i j) := by
  induction h with
  | rel h =>
    right
    refine ⟨h.1, h.2.1, ?_⟩
    intro i j hi hj hia hjb
    refine ConnGen.rel ⟨hi, hj, ?_⟩
    rw [hia, hjb]
    exact h.2.2
  | refl a => exact Or.inl rfl
  | symm _ ih =>
    rcases ih with rfl | ⟨hma, hmb, ih⟩
    · exact Or.inl rfl
    · exact Or.inr ⟨hmb, hma, fun i j hi hj hia hjb => ConnGen.symm (ih j i hj hi hjb hia)⟩
  | trans _ _ ih1 ih2 =>
    rcases ih1 with rfl | ⟨hma, hmb, ih1⟩
    · exact ih2
    · rcases ih2 with rfl | ⟨_, hmc, ih2⟩
      · exact Or.inr ⟨hma, hmb, ih1⟩
      · right
        refine ⟨hma, hmc, ?_⟩
        intro i j hi hj hia hjc
        obtain ⟨k, hk, hkb⟩ := List.getElem_of_mem hmb
        have hkd := getD_of_lt files (default : FileMeta) hk
        rw [hkb] at hkd
        exact ConnGen.trans (ih1 i k hi hk hia hkd) (ih2 k j hk hj hkd hjc)

theorem connGen_rec_iff_idx (files : List FileMeta) (t : ℤ)
    (hnodup : (files.map FileMeta.Path).Nodup) {i j : ℕ}
    (hi : i < files.length) (hj : j < files.length) :
    ConnGen (recEdge files t) (files.getD i default) (files.getD j default)
      ↔ ConnGen (hamEdge files t) i j := by
  constructor
  · intro h
    rcases connGen_rec_to_idx files t h with heq | ⟨_, _, hf⟩
    · have hij := getD_inj files (files_nodup files hnodup) hi hj heq
      rw [hij]
      exact ConnGen.refl j
    · exact hf i j hi hj rfl rfl
  · exact connGen_idx_to_rec files t

/-- Record-level restatement of `mem_selectKeep_iff`: the kept records are those
that weakly dominate every record connected to them through the threshold graph.
Both sides now depend only on which records the batch contains. -/
theorem mem_selectKeep_iff_rec (files : List FileMeta) (t : ℤ)
    (hne : files.length ≠ 0) (hnodup : (files.map FileMeta.Path).Nodup) (m : FileMeta) :
    m ∈ SelectKeep files t ↔
      m ∈ files ∧ ∀ b, b ∈ files → ConnGen (recEdge files t) m b → keepLe m b := by
  rw [mem_selectKeep_iff files t hne hnodup m]
  constructor
  · rintro ⟨i, hi, him, hmin⟩
    refine ⟨him ▸ getD_mem files hi, ?_⟩
    intro b hb hconn
    obtain ⟨j, hj, hjb⟩ := List.getElem_of_mem hb
    have hjd := getD_of_lt files (default : FileMeta) hj
    rw [hjb] at hjd
    have hcg : ConnGen (hamEdge files t) i j := by
      apply (connGen_rec_iff_idx files t hnodup hi hj).mp
      rw [him, hjd]
      exact hconn
    have hsg : sameGroup files t i j := (sameGroup_iff_connGen files t hi hj).mpr hcg
    have hle := hmin j hj hsg
    rw [hjd] at hle
    exact hle
  · rintro ⟨hm, hmin⟩
    obtain ⟨i, hi, him⟩ := List.getElem_of_mem hm
    have hid := getD_of_lt files (default : FileMeta) hi
    rw [him] at hid
    refine ⟨i, hi, hid, ?_⟩
    intro j hj hsg
    have hcg : ConnGen (hamEdge files t) i j := (sameGroup_iff_connGen files t hi hj).mp hsg
    have hrec : ConnGen (recEdge files t) m (files.getD j default) := by
      have hcr := connGen_idx_to_rec files t hcg
      rw [hid] at hcr
      exact hcr
    exact hmin _ (getD_mem files hj) hrec

/-! ### Negative threshold: no unions, every record its own cluster -/

theorem pairsFold_neg (files : List FileMeta) (t : ℤ) (ht : t < 0) :
    pairsFold files t = newUnionFind files.length := by
  unfold pairsFold
  have hinner : ∀ (i : ℕ) (L : List ℕ) (u : UnionFind),
      L.foldl
        (fun u j =>
          if (HammingDistance (files.getD i default).FP (files.getD j default).FP : ℤ) ≤ t
          then ufUnion files.length u i j
          else u)
        u = u := by
    intro i L
    induction L with
    | nil => intro u; rfl
    | cons a L ih =>
      intro u
      rw [List.foldl_cons, if_neg (by omega)]
      exact ih u
  have houter : ∀ (L : List ℕ) (u : UnionFind),
      L.foldl
        (fun u i =>
          (List.range' (i + 1) (files.length - (i + 1))).foldl
            (fun u j =>
              if (HammingDistance (files.getD i default).FP (files.getD j default).FP : ℤ) ≤ t
              then ufUnion files.length u i j
              else u)
            u)
        u = u := by
    intro L
    induction L with
    | nil => intro u; rfl
    | cons a L ih =>
      intro u
      rw [List.foldl_cons, hinner a _ u]
      exact ih u
  exact houter _ _

theorem groupRoots_neg (files : List FileMeta) (t : ℤ) (ht : t < 0) :
    groupRoots files t = List.range files.length := by
  obtain ⟨hlen, hroots⟩ := groupRoots_spec files t
  apply List.ext_getElem (by rw [hlen]; simp)
  intro i h1 h2
  have hi : i < files.length := by simpa using h2
  have hr := hroots i hi
  rw [pairsFold_neg files t ht] at hr
  obtain ⟨⟨k, hk⟩, _⟩ := hr
  have hid : (pm (newUnionFind files.length))^[k] i = i :=
    Function.iterate_fixed (pm_newUnionFind files.length i) k
  rw [hid] at hk
  rw [List.getElem_range, ← getD_of_lt (groupRoots files t) files.length h1]
  exact hk.symm

theorem groupKeys_of_nodup (L : List ℕ) (h : L.Nodup) : groupKeys L = L := by
  have hgen : ∀ (M : List ℕ), M.Nodup → ∀ (acc : List ℕ), (∀ x ∈ M, x ∉ acc) →
      M.foldl insertKey acc = acc ++ M := by
    intro M
    induction M with
    | nil => intro _ acc _; simp
    | cons a M ih =>
      intro hnd acc hdisj
      rw [List.foldl_cons]
      have hstep : insertKey acc a = acc ++ [a] := by
        unfold insertKey
        rw [if_neg (hdisj a (List.mem_cons_self a M))]
      rw [hstep]
      rw [ih (List.nodup_cons.mp hnd).2 (acc ++ [a]) (by
        intro x hx
        simp only [List.mem_append, List.mem_singleton]
        rintro (hxa | rfl)
        · exact hdisj x (List.mem_cons_of_mem a hx) hxa
        · exact (List.nodup_cons.mp hnd).1 hx)]
      simp
  unfold groupKeys
  rw [hgen L h [] (by simp)]
  simp

theorem filter_range_eq_singleton (n r : ℕ) (hr : r < n) :
    (List.range n).filter (fun i => decide (i = r)) = [r] := by
  induction n with
  | zero => omega
  | succ m ih =>
    rw [List.range_succ, List.filter_append]
    rcases Nat.lt_or_ge r m with h | h
    · rw [ih h]
      have hm : List.filter (fun i => decide (i = r)) [m] = [] := by
        simp only [List.filter_eq_nil_iff, List.mem_singleton]
        rintro a rfl
        simp only [decide_eq_true_eq]
        omega
      rw [hm]
      simp
    · have hrm : r = m := by omega
      subst hrm
      have h1 : List.filter (fun i => decide (i = r)) (List.range r) = [] := by
        simp only [List.filter_eq_nil_iff, List.mem_range, decide_eq_true_eq]
        omega
      rw [h1]
      simp

theorem clusterIdxs_neg (files : List FileMeta) (t : ℤ) (ht : t < 0)
    (r : ℕ) (hr : r < files.length) : clusterIdxs files t r = [r] := by
  unfold clusterIdxs
  rw [groupRoots_neg files t ht]
  rw [List.filter_congr (fun i hi => by
    have hin : i < files.length := List.mem_range.mp hi
    have hgd : (List.range files.length).getD i files.length = i := by
      rw [getD_of_lt _ _ (by simpa using hin), List.getElem_range]
    rw [hgd])]
  exact filter_range_eq_singleton files.length r hr

theorem clusterKeep_neg (files : List FileMeta) (t : ℤ) (ht : t < 0)
    (r : ℕ) (hr : r < files.length) : clusterKeep files t r = files.getD r default := by
  unfold clusterKeep
  rw [clusterIdxs_neg files t ht r hr]
  rfl

theorem map_getD_range (files : List FileMeta) :
    (List.range files.length).map (fun r => files.getD r default) = files := by
  apply List.ext_getElem (by simp)
  intro i h1 h2
  rw [List.getElem_map, List.getElem_range, getD_of_lt _ _ h2]

/-- With a negative threshold no pair is unioned: every record stays its own
cluster and `SelectKeep` returns the whole input, sorted by path. -/
theorem selectKeep_neg (files : List FileMeta) (t : ℤ) (ht : t < 0) :
    SelectKeep files t = List.insertionSort pathLe files := by
  by_cases hne : files.length = 0
  · have h0 : files = [] := List.length_eq_zero.mp hne
    subst h0
    rfl
  · rw [SelectKeep_eq files t hne]
    have h2 : (groupKeys (groupRoots files t)).map (clusterKeep files t) = files := by
      rw [groupRoots_neg files t ht, groupKeys_of_nodup _ (List.nodup_range _)]
      have h3 : (List.range files.length).map (clusterKeep files t)
          = (List.range files.length).map (fun r => files.getD r default) :=
        List.map_congr_left (fun r hr => clusterKeep_neg files t ht r (List.mem_range.mp hr))
      rw [h3]
      exact map_getD_range files
    rw [h2]

/-! ### Permutation invariance of the keep-set -/

theorem connGen_recEdge_perm {files files' : List FileMeta} (t : ℤ)
    (hperm : List.Perm files files') {a b : FileMeta}
    (h : ConnGen (recEdge files t) a b) : ConnGen (recEdge files' t) a b := by
  refine connGen_mono ?_ h
  intro x y hxy
  exact ConnGen.rel ⟨hperm.mem_iff.mp hxy.1, hperm.mem_iff.mp hxy.2.1, hxy.2.2⟩

theorem selectKeep_sorted_lt (files : List FileMeta) (t : ℤ)
    (hnodup : (files.map FileMeta.Path).Nodup) :
    List.Sorted pathLt (SelectKeep files t) := by
  have hs := selectKeep_sorted files t
  have hn := selectKeep_nodup files t hnodup
  have hcomb := List.Pairwise.and hs hn
  refine hcomb.imp_of_mem ?_
  intro a b ha hb hab
  obtain ⟨hle, hne⟩ := hab
  have hpa : a.Path.data ≠ b.Path.data := by
    intro hdata
    exact hne (path_inj files hnodup (selectKeep_mem_files files t ha)
      (selectKeep_mem_files files t hb) (String.ext hdata))
  exact lt_of_le_of_ne hle hpa

/-- The whole keep list is invariant under permuting the input batch, as long as
paths are unique within the batch (the data model of the program). -/
theorem selectKeep_perm_eq (files files' : List FileMeta) (t : ℤ)
    (hperm : List.Perm files files') (hnodup : (files.map FileMeta.Path).Nodup) :
    SelectKeep files t = SelectKeep files' t := by
  by_cases hne : files.length = 0
  · have h0 : files = [] := List.length_eq_zero.mp hne
    subst h0
    have h0' : files' = [] := hperm.symm.eq_nil
    subst h0'
    rfl
  · have hne' : files'.length ≠ 0 := by rw [← hperm.length_eq]; exact hne
    have hnodup' : (files'.map FileMeta.Path).Nodup :=
      (hperm.map FileMeta.Path).nodup_iff.mp hnodup
    have hmem : ∀ m, m ∈ SelectKeep files t ↔ m ∈ SelectKeep files' t := by
      intro m
      rw [mem_selectKeep_iff_rec files t hne hnodup m,
        mem_selectKeep_iff_rec files' t hne' hnodup' m]
      constructor
      · rintro ⟨hm, hmin⟩
        refine ⟨hperm.mem_iff.mp hm, ?_⟩
        intro b hb hc
        exact hmin b (hperm.mem_iff.mpr hb) (connGen_recEdge_perm t hperm.symm hc)
      · rintro ⟨hm, hmin⟩
        refine ⟨hperm.mem_iff.mpr hm, ?_⟩
        intro b hb hc
        exact hmin b (hperm.mem_iff.mp hb) (connGen_recEdge_perm t hperm hc)
    have hp : List.Perm (SelectKeep files t) (SelectKeep files' t) :=
      (List.perm_ext_iff_of_nodup (selectKeep_nodup files t hnodup)
        (selectKeep_nodup files' t hnodup')).mpr hmem
    exact List.eq_of_perm_of_sorted hp (selectKeep_sorted_lt files t hnodup)
      (selectKeep_sorted_lt files' t hnodup')

/-! ### Remaining helper facts for the claims -/

theorem FingerprintFromSamples_nonpos (samples : List ℤ) (b : ℤ) (hb : b ≤ 0) :
    FingerprintFromSamples samples b = FingerprintFromSamples samples 64 := by
  unfold FingerprintFromSamples
  rw [if_pos hb, if_neg (by norm_num : ¬ (64 : ℤ) ≤ 0)]

/-! ### The claims -/

/-- C1: for every sample sequence `s` and every bits value `b` in [1,64],
`FingerprintFromSamples s b` equals the reference definition: 0 on empty input;
otherwise `s` is split into `b` contiguous blocks of size `ceil (len s / b)` (blocks
past the end contribute mean 0), the median of the `b` rectified block means is taken
(mean of the two central sorted values for even `b`, the central value for odd `b`),
and bit `b - 1 - i` is set iff block `i`'s mean strictly exceeds the median; a mean
equal to the median yields a 0 bit. -/
theorem C1_fingerprint_matches_reference (s : List ℤ) (b : ℕ)
    (h1 : 1 ≤ b) (h64 : b ≤ 64) :
    FingerprintFromSamples s (b : ℤ) = specFingerprint s b :=
  FingerprintFromSamples_eq_specFingerprint s b h1 h64

/-- Witness for C1 at `s = [1, 1, 3, 3]`, `b = 2`. -/
theorem C1_witness :
    1 ≤ 2 ∧ 2 ≤ 64 ∧
      FingerprintFromSamples [1, 1, 3, 3] ((2 : ℕ) : ℤ) = specFingerprint [1, 1, 3, 3] 2 :=
  ⟨by decide, by decide, C1_fingerprint_matches_reference [1, 1, 3, 3] 2 (by decide) (by decide)⟩

/-- C2: for every record list and every threshold `t ≥ 0`, two in-range indices are
put in the same group by the clustering phase of `SelectKeep` iff they are joined by
a chain of edges of the graph whose edges connect indices at Hamming distance at
most `t` — transitive-closure clustering, not clique clustering. -/
theorem C2_grouping_is_connected_components (files : List FileMeta) (t : ℤ)
    (ht : 0 ≤ t) (i j : ℕ) (hi : i < files.length) (hj : j < files.length) :
    sameGroup files t i j ↔ ConnGen (hamEdge files t) i j :=
  sameGroup_iff_connGen files t hi hj

/-- Witness for C2 on fingerprints 0, 3, 15 at threshold 2: distance 0-3 and 3-15
is 2, distance 0-15 is 4, yet indices 0 and 2 are grouped together. -/
theorem C2_witness :
    ((0 : ℤ) ≤ 2 ∧ 0 < ([⟨"a", 1, 0⟩, ⟨"b", 1, 3⟩, ⟨"c", 1, 15⟩] : List FileMeta).length ∧
      2 < ([⟨"a", 1, 0⟩, ⟨"b", 1, 3⟩, ⟨"c", 1, 15⟩] : List FileMeta).length) ∧
    (sameGroup [⟨"a", 1, 0⟩, ⟨"b", 1, 3⟩, ⟨"c", 1, 15⟩] 2 0 2
      ↔ ConnGen (hamEdge [⟨"a", 1, 0⟩, ⟨"b", 1, 3⟩, ⟨"c", 1, 15⟩] 2) 0 2) :=
  ⟨⟨by decide, by decide, by decide⟩,
    C2_grouping_is_connected_components [⟨"a", 1, 0⟩, ⟨"b", 1, 3⟩, ⟨"c", 1, 15⟩] 2
      (by decide) 0 2 (by decide) (by decide)⟩

/-- C3: for every non-empty record list with pairwise-distinct paths and every
threshold, the output of `SelectKeep` is sorted ascending by path, its members are
exactly the records that weakly dominate (strictly larger size, ties by smaller
path) every record of their cluster, and each cluster contributes exactly one
output record; in the concrete instance A(size 1000, fp X) B(size 2000, fp X)
C(size 1500, fp Y) with distance(X, Y) above the threshold, exactly {B, C} is
returned. -/
theorem C3_selector_per_cluster (files : List FileMeta) (t : ℤ)
    (hne : files.length ≠ 0) (hnodup : (files.map FileMeta.Path).Nodup) :
    List.Sorted pathLe (SelectKeep files t) ∧
    (∀ m, m ∈ SelectKeep files t ↔
      ∃ i, i < files.length ∧ files.getD i default = m ∧
        ∀ j, j < files.length → sameGroup files t i j → keepLe m (files.getD j default)) ∧
    (∀ i, i < files.length → ∃! m, m ∈ SelectKeep files t ∧
      ∃ j, j < files.length ∧ files.getD j default = m ∧ sameGroup files t i j) ∧
    SelectKeep [⟨"a", 1000, 0⟩, ⟨"b", 2000, 0⟩, ⟨"c", 1500, 1023⟩] 8
      = [⟨"b", 2000, 0⟩, ⟨"c", 1500, 1023⟩] :=
  ⟨selectKeep_sorted files t,
    fun m => mem_selectKeep_iff files t hne hnodup m,
    fun i hi => selectKeep_unique_per_cluster files t hne hnodup i hi,
    by decide⟩

/-- Witness for C3 at the singleton batch `[⟨"a", 1, 0⟩]`, threshold 0. -/
theorem C3_witness :
    (([⟨"a", 1, 0⟩] : List FileMeta).length ≠ 0 ∧
      (([⟨"a", 1, 0⟩] : List FileMeta).map FileMeta.Path).Nodup) ∧
    (List.Sorted pathLe (SelectKeep [⟨"a", 1, 0⟩] 0) ∧
    (∀ m, m ∈ SelectKeep [⟨"a", 1, 0⟩] 0 ↔
      ∃ i, i < ([⟨"a", 1, 0⟩] : List FileMeta).length ∧
        ([⟨"a", 1, 0⟩] : List FileMeta).getD i default = m ∧
        ∀ j, j < ([⟨"a", 1, 0⟩] : List FileMeta).length → sameGroup [⟨"a", 1, 0⟩] 0 i j →
          keepLe m (([⟨"a", 1, 0⟩] : List FileMeta).getD j default)) ∧
    (∀ i, i < ([⟨"a", 1, 0⟩] : List FileMeta).length →
      ∃! m, m ∈ SelectKeep [⟨"a", 1, 0⟩] 0 ∧
        ∃ j, j < ([⟨"a", 1, 0⟩] : List FileMeta).length ∧
          ([⟨"a", 1, 0⟩] : List FileMeta).getD j default = m ∧ sameGroup [⟨"a", 1, 0⟩] 0 i j) ∧
    SelectKeep [⟨"a", 1000, 0⟩, ⟨"b", 2000, 0⟩, ⟨"c", 1500, 1023⟩] 8
      = [⟨"b", 2000, 0⟩, ⟨"c", 1500, 1023⟩]) :=
  ⟨⟨by decide, by decide⟩, C3_selector_per_cluster [⟨"a", 1, 0⟩] 0 (by decide) (by decide)⟩

/-- C4: in the batch orchestration, failing files are excluded from the records and
recorded as per-file failures without aborting the batch; the batch-level outcome
fails exactly when zero records were produced; a batch where every file fails gives
an empty records list, a non-empty failures list, and the fatal empty-result
error. -/
theorem C4_batch_error_policy (results : List WorkResult) :
    collectMetas results = (results.filter (fun r => r.err.isNone)).map (fun r => r.meta) ∧
    (∀ r, r ∈ results → ∀ e, r.err = some e → (r.meta.Path, e) ∈ collectFailures results) ∧
    ((batchOutcome results).isOk ↔ collectMetas results ≠ []) ∧
    ((∀ r, r ∈ results → r.err.isSome) →
      collectMetas results = [] ∧ (results ≠ [] → collectFailures results ≠ []) ∧
      batchOutcome results = Except.error "没有成功计算任何文件的指纹") := by
  refine ⟨collectMetas_eq results, ?_, batchOutcome_isOk_iff results, ?_⟩
  · intro r hr e he
    rw [collectFailures_eq]
    refine List.mem_map.mpr ⟨r, List.mem_filter.mpr ⟨hr, by rw [he]; rfl⟩, by rw [he]; rfl⟩
  · intro hall
    have hm : collectMetas results = [] := by
      rw [collectMetas_eq]
      have hf : results.filter (fun r => r.err.isNone) = [] := by
        rw [List.filter_eq_nil_iff]
        intro r hr
        have := hall r hr
        cases he : r.err with
        | none => rw [he] at this; simp at this
        | some e => simp
      rw [hf]
      rfl
    refine ⟨hm, ?_, ?_⟩
    · intro hres hfail
      rw [collectFailures_eq] at hfail
      have hfilter : results.filter (fun r => r.err.isSome) = results :=
        List.filter_eq_self.mpr hall
      rw [hfilter] at hfail
      exact hres (List.map_eq_nil.mp hfail)
    · unfold batchOutcome
      rw [hm]
      rfl

/-- Witness for C4: the all-failing singleton batch. -/
theorem C4_witness :
    (∀ r, r ∈ ([⟨⟨"x", 0, 0⟩, some "boom"⟩] : List WorkResult) → r.err.isSome) ∧
    (collectMetas [⟨⟨"x", 0, 0⟩, some "boom"⟩] = [] ∧
      (([⟨⟨"x", 0, 0⟩, some "boom"⟩] : List WorkResult) ≠ [] →
        collectFailures [⟨⟨"x", 0, 0⟩, some "boom"⟩] ≠ []) ∧
      batchOutcome [⟨⟨"x", 0, 0⟩, some "boom"⟩] = Except.error "没有成功计算任何文件的指纹") :=
  ⟨by decide, (C4_batch_error_policy [⟨⟨"x", 0, 0⟩, some "boom"⟩]).2.2.2 (by decide)⟩

/-- C5 counterexample: `FingerprintFromSamples` does not reject an out-of-range
bits argument. At `bitsLen = 0` it silently computes the 64-bit fingerprint and
returns a value instead of failing. -/
theorem C5_counterexample :
    FingerprintFromSamples [1] 0 = FingerprintFromSamples [1] 64 := rfl

/-- C5 (amended): only the file-level entry point validates the bits argument,
rejecting values outside [1,64] with an error before computing; the sample-level
`FingerprintFromSamples` performs no such validation — a nonpositive bits value is
coerced to 64 and a fingerprint is still returned. -/
theorem C5_amended (samples : List ℤ) (b : ℤ) (hout : b ≤ 0 ∨ 64 < b) :
    FingerprintFromFileChecked samples b = Except.error "bitsLen must be 1..64" ∧
    (b ≤ 0 → FingerprintFromSamples samples b = FingerprintFromSamples samples 64) := by
  constructor
  · unfold FingerprintFromFileChecked
    rw [if_pos hout]
  · intro hb
    exact FingerprintFromSamples_nonpos samples b hb

/-- Witness for C5 at `samples = [1]`, `b = 0`. -/
theorem C5_witness :
    ((0 : ℤ) ≤ 0 ∨ 64 < (0 : ℤ)) ∧
    (FingerprintFromFileChecked [1] 0 = Except.error "bitsLen must be 1..64" ∧
      ((0 : ℤ) ≤ 0 → FingerprintFromSamples [1] 0 = FingerprintFromSamples [1] 64)) :=
  ⟨by decide, C5_amended [1] 0 (by decide)⟩

/-- C6 counterexample: a negative threshold is not rejected. `SelectKeep` at
threshold -1 still returns a non-empty keep-set (here the full batch, sorted by
path) instead of failing. -/
theorem C6_counterexample :
    SelectKeep [⟨"b", 2000, 0⟩, ⟨"a", 1000, 0⟩] (-1)
      = [⟨"a", 1000, 0⟩, ⟨"b", 2000, 0⟩] := by decide

/-- C6 (amended): `SelectKeep` performs no threshold validation. For every negative
threshold no pair is unioned, every record stays its own cluster, and the function
returns the whole input sorted by path rather than failing. -/
theorem C6_amended (files : List FileMeta) (t : ℤ) (ht : t < 0) :
    SelectKeep files t = List.insertionSort pathLe files :=
  selectKeep_neg files t ht

/-- Witness for C6 at a two-record batch, threshold -1. -/
theorem C6_witness :
    ((-1 : ℤ) < 0) ∧
    SelectKeep [⟨"b", 2000, 0⟩, ⟨"a", 1000, 0⟩] (-1)
      = List.insertionSort pathLe [⟨"b", 2000, 0⟩, ⟨"a", 1000, 0⟩] :=
  ⟨by decide, C6_amended [⟨"b", 2000, 0⟩, ⟨"a", 1000, 0⟩] (-1) (by decide)⟩

/-- C7: volume invariance — for every sample sequence, every bits value in [1,64]
and every positive constant `c` that keeps the scaled samples within the signed
16-bit range, fingerprinting the scaled sequence gives the same result as
fingerprinting the original. -/
theorem C7_volume_invariance (s : List ℤ) (b : ℕ) (c : ℤ)
    (hb1 : 1 ≤ b) (hb64 : b ≤ 64) (hc : 0 < c)
    (hrange : ∀ x, x ∈ s → -32768 ≤ c * x ∧ c * x ≤ 32767) :
    FingerprintFromSamples (s.map (fun x => c * x)) (b : ℤ)
      = FingerprintFromSamples s (b : ℤ) :=
  FingerprintFromSamples_scale s b c hb1 hc

/-- Witness for C7 at `s = [1, 2]`, `b = 2`, `c = 3`. -/
theorem C7_witness :
    (1 ≤ 2 ∧ 2 ≤ 64 ∧ (0 : ℤ) < 3 ∧
      (∀ x, x ∈ ([1, 2] : List ℤ) → -32768 ≤ 3 * x ∧ 3 * x ≤ 32767)) ∧
    FingerprintFromSamples (([1, 2] : List ℤ).map (fun x => 3 * x)) ((2 : ℕ) : ℤ)
      = FingerprintFromSamples [1, 2] ((2 : ℕ) : ℤ) :=
  ⟨⟨by decide, by decide, by decide, by decide⟩,
    C7_volume_invariance [1, 2] 2 3 (by decide) (by decide) (by decide) (by decide)⟩

/-- C8: threshold monotonicity of the clustering — for thresholds `0 ≤ t1 < t2`,
any two in-range indices grouped together at `t1` are also grouped together at
`t2`, so every cluster at `t1` is contained in a cluster at `t2`. -/
theorem C8_threshold_monotonicity (files : List FileMeta) (t1 t2 : ℤ)
    (h0 : 0 ≤ t1) (h12 : t1 < t2) (i j : ℕ)
    (hi : i < files.length) (hj : j < files.length)
    (h : sameGroup files t1 i j) : sameGroup files t2 i j := by
  rw [sameGroup_iff_connGen files t2 hi hj]
  rw [sameGroup_iff_connGen files t1 hi hj] at h
  refine connGen_mono ?_ h
  intro a b hab
  exact ConnGen.rel ⟨hab.1, hab.2.1, le_trans hab.2.2 (le_of_lt h12)⟩

/-- Witness for C8: fingerprints 0 and 3 at thresholds 2 < 3. -/
theorem C8_witness :
    ((0 : ℤ) ≤ 2 ∧ (2 : ℤ) < 3 ∧
      0 < ([⟨"a", 1, 0⟩, ⟨"b", 1, 3⟩] : List FileMeta).length ∧
      1 < ([⟨"a", 1, 0⟩, ⟨"b", 1, 3⟩] : List FileMeta).length ∧
      sameGroup [⟨"a", 1, 0⟩, ⟨"b", 1, 3⟩] 2 0 1) ∧
    sameGroup [⟨"a", 1, 0⟩, ⟨"b", 1, 3⟩] 3 0 1 :=
  ⟨⟨by decide, by decide, by decide, by decide, by decide⟩,
    C8_threshold_monotonicity [⟨"a", 1, 0⟩, ⟨"b", 1, 3⟩] 2 3
      (by decide) (by decide) 0 1 (by decide) (by decide) (by decide)⟩

/-- C9: permutation invariance — for every batch with pairwise-distinct paths
(the data model of the program), every threshold, and every permutation of the
input list, `SelectKeep` returns the identical output list. -/
theorem C9_permutation_invariance (files files' : List FileMeta) (t : ℤ)
    (hperm : List.Perm files files')
    (hnodup : (files.map FileMeta.Path).Nodup) :
    SelectKeep files t = SelectKeep files' t :=
  selectKeep_perm_eq files files' t hperm hnodup

/-- Witness for C9: a rotated three-record batch gives the identical keep list. -/
theorem C9_witness :
    (List.Perm ([⟨"a", 1000, 0⟩, ⟨"b", 2000, 0⟩, ⟨"c", 1500, 1023⟩] : List FileMeta)
        [⟨"b", 2000, 0⟩, ⟨"c", 1500, 1023⟩, ⟨"a", 1000, 0⟩] ∧
      (([⟨"a", 1000, 0⟩, ⟨"b", 2000, 0⟩, ⟨"c", 1500, 1023⟩] : List FileMeta).map
        FileMeta.Path).Nodup) ∧
    SelectKeep [⟨"a", 1000, 0⟩, ⟨"b", 2000, 0⟩, ⟨"c", 1500, 1023⟩] 8
      = SelectKeep [⟨"b", 2000, 0⟩, ⟨"c", 1500, 1023⟩, ⟨"a", 1000, 0⟩] 8 :=
  ⟨⟨by decide, by decide⟩,
    C9_permutation_invariance [⟨"a", 1000, 0⟩, ⟨"b", 2000, 0⟩, ⟨"c", 1500, 1023⟩]
      [⟨"b", 2000, 0⟩, ⟨"c", 1500, 1023⟩, ⟨"a", 1000, 0⟩] 8 (by decide) (by decide)⟩

/-- C10: output invariant of the fingerprint — for every sample sequence and every
bits value `b` in [1,64], the fingerprint only sets bit positions below `b` (it is
less than `2 ^ b`) and its Hamming weight is at most `b / 2`: at most half of the
block means can strictly exceed their median, so the all-ones fingerprint is
unreachable. -/
theorem C10_fingerprint_output_invariant (s : List ℤ) (b : ℕ)
    (hb1 : 1 ≤ b) (hb64 : b ≤ 64) :
    FingerprintFromSamples s (b : ℤ) < 2 ^ b ∧
      onesCount (FingerprintFromSamples s (b : ℤ)) ≤ b / 2 := by
  rcases eq_or_ne s.length 0 with hs | hs
  · rw [FingerprintFromSamples_nil s _ hs]
    refine ⟨by positivity, ?_⟩
    rw [onesCount_zero]
    omega
  · exact ⟨FingerprintFromSamples_lt_two_pow s b hb1 hb64 hs,
      FingerprintFromSamples_onesCount_le s b hb1 hb64 hs⟩

/-- Witness for C10 at `s = [1, 1, 3, 3]`, `b = 2`. -/
theorem C10_witness :
    (1 ≤ 2 ∧ 2 ≤ 64) ∧
    (FingerprintFromSamples [1, 1, 3, 3] ((2 : ℕ) : ℤ) < 2 ^ 2 ∧
      onesCount (FingerprintFromSamples [1, 1, 3, 3] ((2 : ℕ) : ℤ)) ≤ 2 / 2) :=
  ⟨⟨by decide, by decide⟩,
    C10_fingerprint_output_invariant [1, 1, 3, 3] 2 (by decide) (by decide)⟩
